import Mathlib

/-
Verification of the minimizers selection-policy core (src/include/algorithms.hpp).

Modelling conventions:
* Symbols (C++ char) are natural numbers (their byte values); DNA letters are
  A=65, C=67, G=71, T=84.
* A window is a List of symbols; the C++ pointer window+i with length len is
  the slice sub window i len.
* uint64_t arithmetic is modelled on Nat; the value uint64_t(-1) used to
  initialise the scan loops is the explicit constant U64MAX = 2^64-1.
* The template parameter Hasher of every policy is a function parameter
  H : HasherFn (util.hpp, which defines the concrete hashers, is not part of
  src/; per the spec, section 4.1, a Hasher is any pure deterministic function
  to a totally ordered key).
* Composite keys (std::pair with lexicographic operator<) are Prod.Lex values.
* C++ assert is modelled as a guard: functions containing an assert return
  Option and yield none exactly when the asserted condition fails.
* The enumerator (enumerator.hpp) is absent from src/ and is modelled from the
  spec, sections 4.2 and 6: a sliding-window leftmost-minimum tracker over the
  last m fed candidates, where feeding with reset set first discards all state
  and is supplied all m candidates of the fresh window, and feeding without
  reset appends the single newly exposed trailing candidate.
-/

namespace Minimizers

/-- Value of uint64_t(-1), the sentinel used to initialise the batch scan
loops and the initial value of the position accumulator p. -/
def U64MAX : ℕ := 2 ^ 64 - 1

/-- Slice of s starting at offset i with length len; models the C++ pointer
expression window + i read with length len. -/
def sub (s : List ℕ) (i len : ℕ) : List ℕ := (s.drop i).take len

/-- Signature of Hasher::hash(ptr, w, len, seed): substring bytes, window
parameter, substring length, seed.  Modelled from the spec: util.hpp with the
concrete hashers is not under src/; spec section 4.1 only requires a pure
deterministic map to a totally ordered key, here a 64-bit value on Nat. -/
abbrev HasherFn : Type := List ℕ → ℕ → ℕ → ℕ → ℕ

/-- Hypothesis that a Hasher never produces the all-ones value 2^64-1, which
the batch scan loops use as their initial minimum (hash_type(-1)). -/
def HBounded (H : HasherFn) : Prop := ∀ s a b c, H s a b c < U64MAX

/-- Membership in the DNA alphabet handled by the repository (A, C, G, T). -/
def isDNA (c : ℕ) : Prop := c = 65 ∨ c = 67 ∨ c = 71 ∨ c = 84

instance (c : ℕ) : Decidable (isDNA c) := by
  unfold isDNA
  infer_instance

section Enumerator

variable {α : Type} [LinearOrder α]

/-- Modelled from the spec: the leftmost-minimum query of the enumerator
(enumerator.hpp is not under src/).  Returns the (position, key) of the
leftmost minimal live candidate of the buffer, none if no live candidate
exists; a none entry of the buffer is a skipped position. -/
def queryAux : List (Option α) → Option (ℕ × α)
  | [] => none
  | o :: rest =>
    let r := (queryAux rest).map (fun pm => (pm.1 + 1, pm.2))
    match o with
    | none => r
    | some x =>
      match r with
      | none => some (0, x)
      | some pm => if pm.2 < x then some pm else some (0, x)

/-- Modelled from the spec: the offset returned by enumerator::next().  When no
live candidate exists the spec leaves the result undefined; we model it as the
uint64_t(-1) pattern of the scan loops. -/
def queryBuf (buf : List (Option α)) : ℕ := ((queryAux buf).map Prod.fst).getD U64MAX

/-- Modelled from the spec: appending one candidate (or one skipped position,
as none) to the trailing buffer of span m. -/
def pushT (m : ℕ) (buf : List (Option α)) (x : Option α) : List (Option α) :=
  let b := buf ++ [x]
  b.drop (b.length - m)

/-- Proposition that p is the position of the leftmost minimal defined key
among key 0, ..., key (n-1). -/
def IsLeastO (key : ℕ → Option α) (n p : ℕ) : Prop :=
  p < n ∧ ∃ x, key p = some x ∧
    (∀ j, j < n → ∀ y, key j = some y → x ≤ y) ∧
    (∀ j, j < p → ∀ y, key j = some y → x < y)

theorem IsLeastO_unique {key : ℕ → Option α} {n p q : ℕ}
    (hp : IsLeastO key n p) (hq : IsLeastO key n q) : p = q := by
  obtain ⟨hpn, x, hx, hxmin, hxleft⟩ := hp
  obtain ⟨hqn, y, hy, hymin, hyleft⟩ := hq
  rcases lt_trichotomy p q with h | h | h
  · exact absurd (hxmin q hqn y hy) (not_le_of_lt (hyleft p h x hx))
  · exact h
  · exact absurd (hymin p hpn x hx) (not_le_of_lt (hxleft q h y hy))

theorem IsLeastO_congr {key key2 : ℕ → Option α} {n p : ℕ}
    (h : ∀ j, j < n → key j = key2 j) (hp : IsLeastO key n p) : IsLeastO key2 n p := by
  obtain ⟨hpn, x, hx, hxmin, hxleft⟩ := hp
  refine ⟨hpn, x, (h p hpn) ▸ hx, ?_, ?_⟩
  · intro j hj y hy
    exact hxmin j hj y ((h j hj) ▸ hy)
  · intro j hj y hy
    exact hxleft j hj y ((h j (hj.trans hpn)) ▸ hy)

theorem queryAux_eq_none_iff (buf : List (Option α)) :
    queryAux buf = none ↔ ∀ o ∈ buf, o = none := by
  induction buf with
  | nil => simp [queryAux]
  | cons o rest ih =>
    cases o with
    | none =>
      simp only [queryAux, List.mem_cons]
      constructor
      · intro h
        have : queryAux rest = none := by
          cases hq : queryAux rest with
          | none => rfl
          | some pm => rw [hq] at h; simp at h
        intro x hx
        rcases hx with hx | hx
        · exact hx
        · exact (ih.mp this) x hx
      · intro h
        have : queryAux rest = none := ih.mpr (fun x hx => h x (Or.inr hx))
        rw [this]
        rfl
    | some x =>
      simp only [queryAux]
      constructor
      · intro h
        exfalso
        cases hq : queryAux rest with
        | none => rw [hq] at h; simp at h
        | some pm => rw [hq] at h; simp at h; split at h <;> simp_all
      · intro h
        have := h (some x) (List.mem_cons_self _ _)
        simp at this

theorem queryAux_spec (buf : List (Option α)) (pm : ℕ × α)
    (h : queryAux buf = some pm) :
    pm.1 < buf.length ∧ buf.getD pm.1 none = some pm.2 ∧
    (∀ j y, j < buf.length → buf.getD j none = some y → pm.2 ≤ y) ∧
    (∀ j y, j < pm.1 → buf.getD j none = some y → pm.2 < y) := by
  induction buf generalizing pm with
  | nil => simp [queryAux] at h
  | cons o rest ih =>
    have getD_cons_succ : ∀ (a : Option α) (l : List (Option α)) (j : ℕ),
        (a :: l).getD (j + 1) none = l.getD j none := by
      intro a l j
      simp [List.getD]
    have getD_cons_zero : ∀ (a : Option α) (l : List (Option α)),
        (a :: l).getD 0 none = a := by
      intro a l
      simp [List.getD]
    cases o with
    | none =>
      simp only [queryAux] at h
      cases hq : queryAux rest with
      | none => rw [hq] at h; simp at h
      | some pm0 =>
        rw [hq] at h
        simp at h
        obtain ⟨h1, h2, h3, h4⟩ := ih pm0 hq
        subst h
        refine ⟨by simpa using Nat.succ_lt_succ h1, ?_, ?_, ?_⟩
        · simpa [getD_cons_succ] using h2
        · intro j y hj hy
          cases j with
          | zero => simp [getD_cons_zero] at hy
          | succ j0 =>
            rw [getD_cons_succ] at hy
            exact h3 j0 y (by simpa using hj) hy
        · intro j y hj hy
          cases j with
          | zero => simp [getD_cons_zero] at hy
          | succ j0 =>
            rw [getD_cons_succ] at hy
            exact h4 j0 y (by simpa using hj) hy
    | some x =>
      simp only [queryAux] at h
      cases hq : queryAux rest with
      | none =>
        rw [hq] at h
        simp at h
        have hnone := (queryAux_eq_none_iff rest).mp hq
        subst h
        refine ⟨by simp, by simp [getD_cons_zero], ?_, ?_⟩
        · intro j y hj hy
          cases j with
          | zero =>
            rw [getD_cons_zero] at hy
            simp only [Option.some.injEq] at hy
            exact le_of_eq hy
          | succ j0 =>
            rw [getD_cons_succ] at hy
            by_cases hl : j0 < rest.length
            · have hmem : rest.getD j0 none ∈ rest := by
                rw [List.getD_eq_getElem?_getD, List.getElem?_eq_getElem (by simpa using hl)]
                exact List.getElem_mem _
              rw [hnone _ hmem] at hy
              simp at hy
            · rw [List.getD_eq_getElem?_getD,
                List.getElem?_eq_none (by omega : rest.length ≤ j0)] at hy
              simp at hy
        · intro j y hj _
          omega
      | some pm0 =>
        rw [hq] at h
        obtain ⟨h1, h2, h3, h4⟩ := ih pm0 hq
        simp only [Option.map_some'] at h
        by_cases hlt : pm0.2 < x
        · rw [if_pos hlt] at h
          simp at h
          subst h
          refine ⟨by simpa using Nat.succ_lt_succ h1, by simpa [getD_cons_succ] using h2, ?_, ?_⟩
          · intro j y hj hy
            cases j with
            | zero =>
              rw [getD_cons_zero] at hy
              simp at hy
              subst hy
              exact le_of_lt hlt
            | succ j0 =>
              rw [getD_cons_succ] at hy
              exact h3 j0 y (by simpa using hj) hy
          · intro j y hj hy
            cases j with
            | zero =>
              rw [getD_cons_zero] at hy
              simp at hy
              subst hy
              exact hlt
            | succ j0 =>
              rw [getD_cons_succ] at hy
              exact h4 j0 y (by simpa using hj) hy
        · rw [if_neg hlt] at h
          simp at h
          subst h
          refine ⟨by simp, by simp [getD_cons_zero], ?_, ?_⟩
          · intro j y hj hy
            cases j with
            | zero =>
              rw [getD_cons_zero] at hy
              simp only [Option.some.injEq] at hy
              exact le_of_eq hy
            | succ j0 =>
              rw [getD_cons_succ] at hy
              exact le_trans (not_lt.mp hlt) (h3 j0 y (by simpa using hj) hy)
          · intro j y hj _
            omega

theorem queryBuf_least (buf : List (Option α))
    (h : ∃ j, j < buf.length ∧ ∃ x, buf.getD j none = some x) :
    IsLeastO (fun j => buf.getD j none) buf.length (queryBuf buf) := by
  cases hq : queryAux buf with
  | none =>
    exfalso
    obtain ⟨j, hj, x, hx⟩ := h
    have hnone := (queryAux_eq_none_iff buf).mp hq
    have hmem : buf.getD j none ∈ buf := by
      rw [List.getD_eq_getElem?_getD, List.getElem?_eq_getElem hj]
      exact List.getElem_mem _
    rw [hnone _ hmem] at hx
    exact Option.noConfusion hx
  | some pm =>
    obtain ⟨h1, h2, h3, h4⟩ := queryAux_spec buf pm hq
    have hqb : queryBuf buf = pm.1 := by simp [queryBuf, hq]
    rw [hqb]
    exact ⟨h1, pm.2, h2, fun j hj y hy => h3 j y hj hy, fun j hj y hy => h4 j y hj hy⟩

theorem getD_range_map {β : Type} (f : ℕ → Option β) (n j : ℕ) (hj : j < n) :
    ((List.range n).map f).getD j none = f j := by
  rw [List.getD_eq_getElem?_getD, List.getElem?_map, List.getElem?_range hj]
  rfl

theorem queryBuf_canon (f : ℕ → Option α) (n : ℕ)
    (h : ∃ i, i < n ∧ ∃ x, f i = some x) :
    IsLeastO f n (queryBuf ((List.range n).map f)) := by
  have hlen : ((List.range n).map f).length = n := by simp
  have hex : ∃ j, j < ((List.range n).map f).length ∧
      ∃ x, ((List.range n).map f).getD j none = some x := by
    obtain ⟨i, hi, x, hx⟩ := h
    exact ⟨i, by omega, x, by rw [getD_range_map f n i hi]; exact hx⟩
  have hq := queryBuf_least ((List.range n).map f) hex
  rw [hlen] at hq
  exact IsLeastO_congr (fun j hj => getD_range_map f n j hj) hq

theorem pushT_shift (m : ℕ) (buf : List (Option α)) (x : Option α) (hm : 1 ≤ m)
    (h : buf.length = m) : pushT m buf x = buf.drop 1 ++ [x] := by
  show List.drop ((buf ++ [x]).length - m) (buf ++ [x]) = buf.drop 1 ++ [x]
  have hL : (buf ++ [x]).length - m = 1 := by simp [h]
  rw [hL, List.drop_append_of_le_length (by omega)]

theorem pushT_full (m : ℕ) (hm : 1 ≤ m) (g : ℕ → Option α) (i : ℕ) :
    pushT m ((List.range m).map fun j => g (i + j)) (g (i + m)) =
      (List.range m).map fun j => g (i + 1 + j) := by
  obtain ⟨m0, rfl⟩ : ∃ m0, m = m0 + 1 := ⟨m - 1, by omega⟩
  rw [pushT_shift _ _ _ hm (by simp)]
  conv_lhs => rw [List.range_succ_eq_map]
  conv_rhs => rw [List.range_succ]
  simp only [List.map_cons, List.map_map, List.drop_succ_cons, List.drop_zero,
    List.map_append]
  congr 1
  · apply List.map_congr_left
    intro j _
    simp only [Function.comp_apply]
    exact congrArg g (by omega)
  · simp only [List.map_cons, List.map_nil]
    exact congrArg (fun z => [g z]) (by omega)

theorem pushT_grow (m : ℕ) (buf : List (Option α)) (x : Option α)
    (h : buf.length + 1 ≤ m) : pushT m buf x = buf ++ [x] := by
  show List.drop ((buf ++ [x]).length - m) (buf ++ [x]) = buf ++ [x]
  have hL : (buf ++ [x]).length - m = 0 := by simp; omega
  rw [hL, List.drop_zero]

end Enumerator

section Scan

variable {α : Type} [LinearOrder α]

/-- Batch scan loop shared by every sample(window) in algorithms.hpp:
p = uint64_t(-1), min_hash = hash_type(-1) = sent, then for i in [0, n) update
(p, min_hash) whenever key i < min_hash.  A none key models a skipped
candidate (miniception: uncharged kmer). -/
def scanLoopO (sent : α) (key : ℕ → Option α) (n : ℕ) : ℕ × α :=
  (List.range n).foldl (fun acc i =>
    match key i with
    | none => acc
    | some x => if x < acc.2 then (i, x) else acc) (U64MAX, sent)

/-- Batch scan loop where every candidate participates. -/
def scanLoop (sent : α) (key : ℕ → α) (n : ℕ) : ℕ × α :=
  scanLoopO sent (fun i => some (key i)) n

theorem scanLoopO_succ (sent : α) (key : ℕ → Option α) (n : ℕ) :
    scanLoopO sent key (n + 1) =
      match key n with
      | none => scanLoopO sent key n
      | some x =>
        if x < (scanLoopO sent key n).2 then (n, x) else scanLoopO sent key n := by
  unfold scanLoopO
  rw [List.range_succ, List.foldl_append]
  simp only [List.foldl_cons, List.foldl_nil]

theorem scanLoopO_inv (sent : α) (key : ℕ → Option α) (n : ℕ) :
    (scanLoopO sent key n = (U64MAX, sent) ∧
      ∀ j, j < n → ∀ y, key j = some y → sent ≤ y) ∨
    ((scanLoopO sent key n).1 < n ∧
      key (scanLoopO sent key n).1 = some (scanLoopO sent key n).2 ∧
      (scanLoopO sent key n).2 < sent ∧
      (∀ j, j < n → ∀ y, key j = some y → (scanLoopO sent key n).2 ≤ y) ∧
      (∀ j, j < (scanLoopO sent key n).1 → ∀ y, key j = some y →
        (scanLoopO sent key n).2 < y)) := by
  induction n with
  | zero =>
    left
    exact ⟨rfl, fun j hj => by omega⟩
  | succ n ih =>
    rw [scanLoopO_succ]
    rcases ih with ⟨heq, hall⟩ | ⟨h1, h2, h3, h4, h5⟩
    · cases hk : key n with
      | none =>
        dsimp only
        left
        refine ⟨heq, fun j hj y hy => ?_⟩
        rcases Nat.lt_succ_iff_lt_or_eq.mp hj with hj2 | hj2
        · exact hall j hj2 y hy
        · subst hj2; rw [hk] at hy; exact Option.noConfusion hy
      | some x =>
        rw [heq]
        dsimp only
        by_cases hx : x < sent
        · rw [if_pos hx]
          right
          refine ⟨Nat.lt_succ_self n, by simpa using hk, hx, ?_, ?_⟩
          · intro j hj y hy
            rcases Nat.lt_succ_iff_lt_or_eq.mp hj with hj2 | hj2
            · exact le_of_lt (lt_of_lt_of_le hx (hall j hj2 y hy))
            · subst hj2; rw [hk] at hy; simp at hy; subst hy; exact le_refl _
          · intro j hj y hy
            exact lt_of_lt_of_le hx (hall j hj y hy)
        · rw [if_neg hx]
          left
          refine ⟨rfl, fun j hj y hy => ?_⟩
          rcases Nat.lt_succ_iff_lt_or_eq.mp hj with hj2 | hj2
          · exact hall j hj2 y hy
          · subst hj2; rw [hk] at hy; simp at hy; subst hy; exact not_lt.mp hx
    · cases hk : key n with
      | none =>
        dsimp only
        right
        refine ⟨h1.trans (Nat.lt_succ_self n), h2, h3, ?_, h5⟩
        intro j hj y hy
        rcases Nat.lt_succ_iff_lt_or_eq.mp hj with hj2 | hj2
        · exact h4 j hj2 y hy
        · subst hj2; rw [hk] at hy; exact Option.noConfusion hy
      | some x =>
        dsimp only
        by_cases hx : x < (scanLoopO sent key n).2
        · rw [if_pos hx]
          right
          refine ⟨Nat.lt_succ_self n, by simpa using hk, lt_trans hx h3, ?_, ?_⟩
          · intro j hj y hy
            rcases Nat.lt_succ_iff_lt_or_eq.mp hj with hj2 | hj2
            · exact le_of_lt (lt_of_lt_of_le hx (h4 j hj2 y hy))
            · subst hj2; rw [hk] at hy; simp at hy; subst hy; exact le_refl _
          · intro j hj y hy
            exact lt_of_lt_of_le hx (h4 j hj y hy)
        · rw [if_neg hx]
          right
          refine ⟨h1.trans (Nat.lt_succ_self n), h2, h3, ?_, h5⟩
          intro j hj y hy
          rcases Nat.lt_succ_iff_lt_or_eq.mp hj with hj2 | hj2
          · exact h4 j hj2 y hy
          · subst hj2; rw [hk] at hy; simp at hy; subst hy; exact not_lt.mp hx

theorem scanLoopO_least (sent : α) (key : ℕ → Option α) (n : ℕ)
    (h : ∃ i, i < n ∧ ∃ x, key i = some x ∧ x < sent) :
    IsLeastO key n (scanLoopO sent key n).1 ∧
      key (scanLoopO sent key n).1 = some (scanLoopO sent key n).2 := by
  rcases scanLoopO_inv sent key n with ⟨_, hall⟩ | ⟨h1, h2, h3, h4, h5⟩
  · exfalso
    obtain ⟨i, hi, x, hx, hxs⟩ := h
    exact absurd (hall i hi x hx) (not_le_of_lt hxs)
  · exact ⟨⟨h1, _, h2, h4, h5⟩, h2⟩

theorem scanLoop_least (sent : α) (key : ℕ → α) (n : ℕ)
    (h : ∃ i, i < n ∧ key i < sent) :
    IsLeastO (fun i => some (key i)) n (scanLoop sent key n).1 ∧
      key (scanLoop sent key n).1 = (scanLoop sent key n).2 := by
  obtain ⟨i, hi, hx⟩ := h
  have hh := scanLoopO_least sent (fun i => some (key i)) n ⟨i, hi, key i, rfl, hx⟩
  exact ⟨hh.1, Option.some_injective _ hh.2⟩

end Scan

section Slicing

theorem sub_sub (s : List ℕ) (i l j t : ℕ) (h : j + t ≤ l) :
    sub (sub s i l) j t = sub s (i + j) t := by
  unfold sub
  rw [List.drop_take, List.take_take, List.drop_drop, min_eq_left (by omega : t ≤ l - j)]

theorem getD_sub (s : List ℕ) (i len p : ℕ) (h : p < len) :
    (sub s i len).getD p 0 = s.getD (i + p) 0 := by
  unfold sub
  rw [List.getD_eq_getElem?_getD, List.getElem?_take_of_lt h, List.getElem?_drop,
    ← List.getD_eq_getElem?_getD]

theorem sub_length (s : List ℕ) (i len : ℕ) (h : i + len ≤ s.length) :
    (sub s i len).length = len := by
  unfold sub
  rw [List.length_take, List.length_drop]
  omega

end Slicing

/-- Streaming driver: n windows of length l of the sequence s are fed one by
one to the streaming sample, with reset true exactly on the first call; the
result is the final policy state and the list of produced offsets. -/
def streamRun {σ β : Type} (step : σ → List ℕ → Bool → σ × β) (st : σ)
    (s : List ℕ) (l : ℕ) : ℕ → σ × List β
  | 0 => (st, [])
  | n + 1 =>
    let r := streamRun step st s l n
    let o := step r.1 (sub s n l) (n == 0)
    (o.1, r.2 ++ [o.2])

section SimpleStream

variable {α β : Type} [LinearOrder α]

/-- Shared shape of the streaming sample of the single-enumerator policies
(mod_sampling, rotational_alt, rotational_orig, decycling, double_decycling):
advance the enumerator of span m with the window-local key function and
convert the queried position. -/
def simpleStep (m : ℕ) (κ : List ℕ → ℕ → α) (conv : ℕ → β)
    (st : List (Option α)) (window : List ℕ) (clear : Bool) :
    List (Option α) × β :=
  let st2 :=
    if clear then (List.range m).map (fun j => some (κ window j))
    else pushT m st (some (κ window (m - 1)))
  (st2, conv (queryBuf st2))

theorem simpleRun_spec (m : ℕ) (κ : List ℕ → ℕ → α) (conv : ℕ → β)
    (s : List ℕ) (l : ℕ) (K : ℕ → α) (hm : 1 ≤ m)
    (hloc : ∀ i j, j < m → κ (sub s i l) j = K (i + j)) :
    ∀ n, 1 ≤ n →
      (streamRun (simpleStep m κ conv) [] s l n).1 =
        (List.range m).map (fun j => some (K (n - 1 + j))) ∧
      (streamRun (simpleStep m κ conv) [] s l n).2 =
        (List.range n).map
          (fun i => conv (queryBuf ((List.range m).map (fun j => some (K (i + j)))))) := by
  intro n hn
  induction n with
  | zero => omega
  | succ n ih =>
    by_cases hn0 : n = 0
    · subst hn0
      have hfill : (List.range m).map (fun j => some (κ (sub s 0 l) j)) =
          (List.range m).map (fun j => some (K (0 + j))) := by
        apply List.map_congr_left
        intro j hj
        rw [hloc 0 j (List.mem_range.mp hj)]
      have hstep : simpleStep m κ conv [] (sub s 0 l) (0 == 0) =
          ((List.range m).map (fun j => some (K (0 + j))),
           conv (queryBuf ((List.range m).map (fun j => some (K (0 + j)))))) := by
        simp only [simpleStep]
        rw [if_pos (show ((0 : ℕ) == 0) = true from rfl), hfill]
      constructor
      · show (simpleStep m κ conv [] (sub s 0 l) (0 == 0)).1 = _
        rw [hstep]
      · show [] ++ [(simpleStep m κ conv [] (sub s 0 l) (0 == 0)).2] = _
        rw [hstep]
        simp [List.range_succ]
    · have hn1 : 1 ≤ n := by omega
      obtain ⟨ihs, iho⟩ := ih hn1
      have hb : (n == 0) = false := by simp [hn0]
      have hpush : pushT m ((streamRun (simpleStep m κ conv) [] s l n).1)
          (some (κ (sub s n l) (m - 1))) =
          (List.range m).map (fun j => some (K (n + j))) := by
        rw [ihs, hloc n (m - 1) (by omega)]
        have hv : some (K (n + (m - 1))) = (fun q => some (K q)) (n - 1 + m) := by
          have : n + (m - 1) = n - 1 + m := by omega
          rw [this]
        rw [hv, pushT_full m hm (fun q => some (K q)) (n - 1)]
        apply List.map_congr_left
        intro j _
        have : n - 1 + 1 + j = n + j := by omega
        rw [this]
      constructor
      · show (simpleStep m κ conv (streamRun (simpleStep m κ conv) [] s l n).1
          (sub s n l) (n == 0)).1 = _
        rw [hb]
        simp only [simpleStep, if_neg (by simp : ¬ (false = true))]
        rw [hpush]
        congr 1
      · show (streamRun (simpleStep m κ conv) [] s l n).2 ++
          [(simpleStep m κ conv (streamRun (simpleStep m κ conv) [] s l n).1
            (sub s n l) (n == 0)).2] = _
        rw [hb, iho]
        simp only [simpleStep, if_neg (by simp : ¬ (false = true))]
        rw [hpush, List.range_succ, List.map_append, List.map_cons, List.map_nil]

theorem scanLoopO_congr (sent : α) (key key2 : ℕ → Option α) (n : ℕ)
    (h : ∀ i, i < n → key i = key2 i) :
    scanLoopO sent key n = scanLoopO sent key2 n := by
  induction n with
  | zero => rfl
  | succ n ih =>
    rw [scanLoopO_succ, scanLoopO_succ, ih (fun i hi => h i (hi.trans (Nat.lt_succ_self n))),
      h n (Nat.lt_succ_self n)]

theorem queryBuf_allSome_least (K : ℕ → α) (i m : ℕ) (hm : 1 ≤ m) :
    IsLeastO (fun j => some (K (i + j))) m
      (queryBuf ((List.range m).map (fun j => some (K (i + j))))) :=
  queryBuf_canon _ m ⟨0, by omega, K (i + 0), rfl⟩

end SimpleStream

/-- Forwardness test is_not_forward of algorithms.hpp, lines 23-42 (argument
order k, w, t as in the source); the asserts there require w >= 2 and
t <= k. -/
def is_not_forward (k w t : ℕ) : Bool := decide ((w + k - t - 1) % w < w - 2)

/-- Analytic density formula closed_form_density of algorithms.hpp, lines
45-57.  double arithmetic is idealised as exact rational arithmetic, and the
throw of std::runtime_error is the error case.  The claims settled against
this definition only concern the dispatch on the scheme name. -/
def closed_form_density (scheme_name : String) (k w t : ℕ) : Except String ℚ :=
  if scheme_name = "miniception" then Except.ok (167 / 100 / (w : ℚ))
  else if scheme_name = "mod_sampling" then
    let ok := (w + k - 1 - t) % w = w - 1
    let correction : ℚ :=
      if ok then 0 else ((1 + ((k : ℚ) - 1 - t) / w).floor : ℚ) / ((w : ℚ) + k - t)
    Except.ok ((((1 + ((k : ℚ) - t - 1) / w).floor : ℚ) + 2 - correction) /
      ((w : ℚ) + k - t + 1))
  else Except.error "unknown scheme name"

namespace mod_sampling

/-- Key of the tmer at window offset i: Hasher::hash(window + i, m_w, m_t,
m_seed) as called on line 82. -/
def tmerKey (H : HasherFn) (w t seed : ℕ) (window : List ℕ) (i : ℕ) : ℕ :=
  H (sub window i t) w t seed

/-- Batch sample(window) of mod_sampling, algorithms.hpp lines 75-114:
leftmost tmer with minimal hash among num_tmers candidates, position reduced
modulo w (fastmod_u32); the assert(p < num_tmers) is the none case. -/
def sample (H : HasherFn) (w k t seed : ℕ) (window : List ℕ) : Option ℕ :=
  let num_tmers := (w + k - 1) - t + 1
  let pm := scanLoop U64MAX (tmerKey H w t seed window) num_tmers
  if pm.1 < num_tmers then some (pm.1 % w) else none

/-- Streaming state: the buffer of the tmer enumerator m_enum_tmers of span
w + k - t (constructor, line 70). -/
abbrev StreamState : Type := List (Option ℕ)

/-- Streaming sample(window, clear) of mod_sampling, lines 116-122: advance
the tmer enumerator and return its leftmost-minimum position modulo w. -/
def sampleStream (H : HasherFn) (w k t seed : ℕ) (st : StreamState)
    (window : List ℕ) (clear : Bool) : StreamState × ℕ :=
  let m := w + k - t
  let st2 :=
    if clear then (List.range m).map (fun j => some (tmerKey H w t seed window j))
    else pushT m st (some (tmerKey H w t seed window (m - 1)))
  (st2, queryBuf st2 % w)

end mod_sampling

namespace miniception

/-- Key of the tmer at window offset q as fed to the inner tmer enumerators
(lines 144 and 139); the Hasher window argument is the policy parameter w. -/
def tKey (H : HasherFn) (w t seed : ℕ) (window : List ℕ) (q : ℕ) : ℕ :=
  H (sub window q t) w t seed

/-- Key of the kmer at window offset i: Hasher::hash(kmer, m_w, m_k, m_seed)
as called on line 154. -/
def kKey (H : HasherFn) (w k seed : ℕ) (window : List ℕ) (i : ℕ) : ℕ :=
  H (sub window i k) w k seed

/-- Advance of the inner tmer enumerator of span w0 + 1 = k - t + 1 for the
kmer at window offset i, with reset exactly at i = 0 (eat calls on lines 150
and 168): on reset all k - t + 1 tmers of the kmer are fed, otherwise only its
newly exposed last tmer, at window offset i + (k - t). -/
def innerAdvance (H : HasherFn) (w k t seed : ℕ) (window : List ℕ)
    (ibuf : List (Option ℕ)) (i : ℕ) : List (Option ℕ) :=
  let w0 := k - t
  if i = 0 then (List.range (w0 + 1)).map (fun j => some (tKey H w t seed window (i + j)))
  else pushT (w0 + 1) ibuf (some (tKey H w t seed window (i + w0)))

/-- Batch sample(window) of miniception, lines 142-163: a kmer is charged iff
the leftmost minimal tmer of its k - t + 1 tmers sits at position 0 or k - t;
only charged kmers compete for the leftmost minimal kmer hash; the
assert(p < m_w) is the none case. -/
def sample (H : HasherFn) (w k t seed : ℕ) (window : List ℕ) : Option ℕ :=
  let w0 := k - t
  let r := (List.range w).foldl
    (fun (acc : List (Option ℕ) × ℕ × ℕ) i =>
      let ibuf := innerAdvance H w k t seed window acc.1 i
      let tp := queryBuf ibuf
      if tp = 0 ∨ tp = w0 then
        let hash := kKey H w k seed window i
        if hash < acc.2.2 then (ibuf, i, hash) else (ibuf, acc.2)
      else (ibuf, acc.2))
    ([], U64MAX, U64MAX)
  if r.2.1 < w then some r.2.1 else none

/-- Streaming state: buffers of the inner tmer enumerator m_enum_tmers and of
the outer kmer enumerator m_enum_kmers (constructor, lines 134-140). -/
abbrev StreamState : Type := List (Option ℕ) × List (Option ℕ)

/-- Streaming sample(window, clear) of miniception, lines 165-180: the loop
runs over all w kmers on a cleared call and only over the last kmer
afterwards; charged kmers are eaten by the outer enumerator, uncharged ones
are skipped; the assert(p < m_w) is the none case. -/
def sampleStream (H : HasherFn) (w k t seed : ℕ) (st : StreamState)
    (window : List ℕ) (clear : Bool) : StreamState × Option ℕ :=
  let w0 := k - t
  let idxs := if clear then List.range w else [w - 1]
  let st2 := idxs.foldl
    (fun (acc : StreamState) i =>
      let ibuf := innerAdvance H w k t seed window acc.1 i
      let tp := queryBuf ibuf
      if tp = 0 ∨ tp = w0 then (ibuf, pushT w acc.2 (some (kKey H w k seed window i)))
      else (ibuf, pushT w acc.2 none))
    st
  let p := queryBuf st2.2
  (st2, if p < w then some p else none)

end miniception

/-- Stride sum of the kmer: the loop for (j = 0; j < k; j += w) summing
kmer[j] (line 201), with ceil(k / w) iterations. -/
def strideSum (kmer : List ℕ) (w k : ℕ) : ℤ :=
  ((List.range ((k + (w - 1)) / w)).map (fun m => (kmer.getD (m * w) 0 : ℤ))).sum

namespace rotational_alt

/-- Composite key of rotational_alt_hasher, lines 193-204: the negated stride
sum paired with the Hasher key, compared lexicographically (std::pair
operator<). -/
def kmerKey (H : HasherFn) (w k seed : ℕ) (window : List ℕ) (i : ℕ) :
    Lex (ℤ × ℕ) :=
  toLex (-strideSum (sub window i k) w k, H (sub window i k) w k seed)

/-- Sentinel rotational_alt_hash{-1, -1}: int64_t(-1) paired with
uint64_t(-1). -/
def sentinel : Lex (ℤ × ℕ) := toLex (-1, U64MAX)

/-- Batch sample(window) of rotational_alt, lines 216-229; the
assert(p < m_w) is the none case. -/
def sample (H : HasherFn) (w k seed : ℕ) (window : List ℕ) : Option ℕ :=
  let pm := scanLoop sentinel (kmerKey H w k seed window) w
  if pm.1 < w then some pm.1 else none

/-- Streaming state: the buffer of the kmer enumerator m_enum_kmers of span w
(constructor, line 214). -/
abbrev StreamState : Type := List (Option (Lex (ℤ × ℕ)))

/-- Streaming sample(window, clear) of rotational_alt, lines 231-234. -/
def sampleStream (H : HasherFn) (w k seed : ℕ) (st : StreamState)
    (window : List ℕ) (clear : Bool) : StreamState × ℕ :=
  let st2 :=
    if clear then (List.range w).map (fun j => some (kmerKey H w k seed window j))
    else pushT w st (some (kmerKey H w k seed window (w - 1)))
  (st2, queryBuf st2)

end rotational_alt

/-- Global remap table char_remap (line 244) after the rotational_orig
constructor has written it (lines 287-290); every other byte value keeps its
zero initialisation.  The writes are idempotent, so the table is modelled as
this pure function. -/
def char_remap (c : ℕ) : ℕ :=
  if c = 65 then 0 else if c = 67 then 1 else if c = 84 then 2 else
  if c = 71 then 3 else 0

/-- Remapped sum over the class j positions of the kmer: the loop
for (pos = j; pos < k; pos += w) of rotational_orig_hasher (lines 256 and
260), with ceil((k - j) / w) iterations. -/
def classSum (kmer : List ℕ) (w k j : ℕ) : ℕ :=
  ((List.range ((k - j + (w - 1)) / w)).map
    (fun m => char_remap (kmer.getD (j + m * w) 0))).sum

/-- Membership test of the restricted set (the in_uhs flag of
rotational_orig_hasher, lines 253-272): every class j in [1, w) has remapped
sum at most sum0 + sigma - 1 with sigma = 4. -/
def in_uhs (kmer : List ℕ) (w k : ℕ) : Bool :=
  (List.range w).all
    (fun j => j == 0 || decide (classSum kmer w k j ≤ classSum kmer w k 0 + 3))

/-- Label component of rotational_orig_hasher (line 274): 0 iff the kmer is in
the restricted set. -/
def uhsLabel (kmer : List ℕ) (w k : ℕ) : ℕ := if in_uhs kmer w k then 0 else 1

namespace rotational_orig

/-- Constructor of rotational_orig, lines 283-291: assert(m_k % m_w == 0) is
the none case; on success the policy state is produced (the char_remap writes
are the pure function char_remap). -/
def construct (w k t seed : ℕ) : Option (ℕ × ℕ × ℕ) :=
  if k % w = 0 then some (w, k, seed) else none

/-- Composite key of rotational_orig_hasher, lines 247-276. -/
def kmerKey (H : HasherFn) (w k seed : ℕ) (window : List ℕ) (i : ℕ) :
    Lex (ℕ × ℕ) :=
  toLex (uhsLabel (sub window i k) w k, H (sub window i k) w k seed)

/-- Sentinel uhs_hash{-1, -1}: uint8_t(-1) = 255 paired with uint64_t(-1). -/
def sentinel : Lex (ℕ × ℕ) := toLex (255, U64MAX)

/-- Batch sample(window) of rotational_orig, lines 293-310: when the minimal
key has label distinct from 0 no kmer is in the restricted set and the error
path (std::cerr message and assert(false)) is taken, modelled as none; the
final assert(p < m_w) is also a none case. -/
def sample (H : HasherFn) (w k seed : ℕ) (window : List ℕ) : Option ℕ :=
  let pm := scanLoop sentinel (kmerKey H w k seed window) w
  if (ofLex pm.2).1 ≠ 0 then none
  else if pm.1 < w then some pm.1 else none

/-- Streaming state: the buffer of the kmer enumerator m_enum_kmers of span w
(constructor, line 284). -/
abbrev StreamState : Type := List (Option (Lex (ℕ × ℕ)))

/-- Streaming sample(window, clear) of rotational_orig, lines 312-315.  Note
that this path performs no restricted-set check at all. -/
def sampleStream (H : HasherFn) (w k seed : ℕ) (st : StreamState)
    (window : List ℕ) (clear : Bool) : StreamState × ℕ :=
  let st2 :=
    if clear then (List.range w).map (fun j => some (kmerKey H w k seed window j))
    else pushT w st (some (kmerKey H w k seed window (w - 1)))
  (st2, queryBuf st2)

end rotational_orig

noncomputable section DecyclingDefs

/-- Angle table pushed by one decycling or double_decycling constructor
(lines 391-393 and 449-451): entry i is exp(2*pi*i/k * I); long double
trigonometry is idealised as exact real arithmetic. -/
def rootsTable (k : ℕ) : List ℂ :=
  (List.range k).map
    (fun (i : ℕ) => Complex.exp (((2 * Real.pi * i / k : ℝ) : ℂ) * Complex.I))

/-- Effect of one decycling or double_decycling construction on the
process-wide global vector roots (line 325): the constructor appends k fresh
entries and never clears previously pushed ones. -/
def constructRoots (k : ℕ) (g : List ℂ) : List ℂ := g ++ rootsTable k

/-- Complex embedding sum of is_decycling_arg_pos and is_decycling_arg_neg
(lines 345 and 359), reading the first k entries of the global roots
vector. -/
def embSum (g : List ℂ) (k : ℕ) (kmer : List ℕ) : ℂ :=
  ((List.range k).map (fun i => g.getD i 0 * (kmer.getD i 0 : ℂ))).sum

/-- Test of is_decycling_arg_pos, lines 343-349. -/
def isDecyclingArgPos (g : List ℂ) (k : ℕ) (kmer : List ℕ) : Prop :=
  Real.pi - 2 * Real.pi / k < (embSum g k kmer).arg

/-- Test of is_decycling_arg_neg, lines 357-362. -/
def isDecyclingArgNeg (g : List ℂ) (k : ℕ) (kmer : List ℕ) : Prop :=
  -2 * Real.pi / k < (embSum g k kmer).arg ∧ (embSum g k kmer).arg ≤ 0

open Classical in
/-- Label component of decycling_hasher, lines 364-378. -/
def decLabel (g : List ℂ) (k : ℕ) (kmer : List ℕ) : ℕ :=
  if isDecyclingArgPos g k kmer then 0 else 1

open Classical in
/-- Label component of double_decycling_hasher, lines 422-436. -/
def ddecLabel (g : List ℂ) (k : ℕ) (kmer : List ℕ) : ℕ :=
  if isDecyclingArgPos g k kmer then 0
  else if isDecyclingArgNeg g k kmer then 1 else 2

/-- Sentinel T{-1, -1}: uint8_t(-1) = 255 paired with uint64_t(-1). -/
def decSentinel : Lex (ℕ × ℕ) := toLex (255, U64MAX)

namespace decycling

/-- Composite key of decycling_hasher, lines 364-378, reading the global roots
vector g. -/
def kmerKey (H : HasherFn) (w k seed : ℕ) (g : List ℂ) (window : List ℕ)
    (i : ℕ) : Lex (ℕ × ℕ) :=
  toLex (decLabel g k (sub window i k), H (sub window i k) w k seed)

/-- Batch sample(window) of decycling, lines 396-410; the assert(p < m_w) is
the none case.  The global roots vector at the time of the call is the
argument g. -/
def sample (H : HasherFn) (w k seed : ℕ) (g : List ℂ) (window : List ℕ) :
    Option ℕ :=
  let pm := scanLoop decSentinel (kmerKey H w k seed g window) w
  if pm.1 < w then some pm.1 else none

/-- Streaming state: the buffer of the kmer enumerator m_enum_kmers of span w
(constructor, line 387). -/
abbrev StreamState : Type := List (Option (Lex (ℕ × ℕ)))

/-- Streaming sample(window, clear) of decycling, lines 412-415. -/
def sampleStream (H : HasherFn) (w k seed : ℕ) (g : List ℂ) (st : StreamState)
    (window : List ℕ) (clear : Bool) : StreamState × ℕ :=
  let st2 :=
    if clear then (List.range w).map (fun j => some (kmerKey H w k seed g window j))
    else pushT w st (some (kmerKey H w k seed g window (w - 1)))
  (st2, queryBuf st2)

end decycling

namespace double_decycling

/-- Composite key of double_decycling_hasher, lines 422-436, reading the
global roots vector g. -/
def kmerKey (H : HasherFn) (w k seed : ℕ) (g : List ℂ) (window : List ℕ)
    (i : ℕ) : Lex (ℕ × ℕ) :=
  toLex (ddecLabel g k (sub window i k), H (sub window i k) w k seed)

/-- Batch sample(window) of double_decycling, lines 454-468; the
assert(p < m_w) is the none case. -/
def sample (H : HasherFn) (w k seed : ℕ) (g : List ℂ) (window : List ℕ) :
    Option ℕ :=
  let pm := scanLoop decSentinel (kmerKey H w k seed g window) w
  if pm.1 < w then some pm.1 else none

/-- Streaming state: the buffer of the kmer enumerator m_enum_kmers of span w
(constructor, line 445). -/
abbrev StreamState : Type := List (Option (Lex (ℕ × ℕ)))

/-- Streaming sample(window, clear) of double_decycling, lines 470-473. -/
def sampleStream (H : HasherFn) (w k seed : ℕ) (g : List ℂ) (st : StreamState)
    (window : List ℕ) (clear : Bool) : StreamState × ℕ :=
  let st2 :=
    if clear then (List.range w).map (fun j => some (kmerKey H w k seed g window j))
    else pushT w st (some (kmerKey H w k seed g window (w - 1)))
  (st2, queryBuf st2)

end double_decycling

end DecyclingDefs

theorem isDNA_bounds (c : ℕ) (h : isDNA c) : 65 ≤ c ∧ c ≤ 84 := by
  rcases h with h | h | h | h <;> omega

theorem strideSum_ge (kmer : List ℕ) (w k : ℕ) (hk : 1 ≤ k) (hw : 1 ≤ w)
    (hc : 65 ≤ kmer.getD 0 0) : 2 ≤ strideSum kmer w k := by
  unfold strideSum
  obtain ⟨c0, hc0⟩ : ∃ c0, (k + (w - 1)) / w = c0 + 1 := by
    refine ⟨(k + (w - 1)) / w - 1, ?_⟩
    have h1 : 1 ≤ (k + (w - 1)) / w := (Nat.one_le_div_iff (by omega)).mpr (by omega)
    omega
  rw [hc0, List.range_succ_eq_map, List.map_cons, List.sum_cons, List.map_map]
  have h1 : (65 : ℤ) ≤ (kmer.getD (0 * w) 0 : ℤ) := by
    rw [Nat.zero_mul]
    exact_mod_cast hc
  have h2 : 0 ≤ (List.map ((fun m => (kmer.getD (m * w) 0 : ℤ)) ∘ Nat.succ)
      (List.range c0)).sum := by
    apply List.sum_nonneg
    intro x hx
    obtain ⟨j, _, rfl⟩ := List.mem_map.mp hx
    exact Int.natCast_nonneg _
  omega

namespace mod_sampling

theorem sampleStream_eq_simpleStep_mod (H : HasherFn) (w k t seed : ℕ) :
    sampleStream H w k t seed =
      simpleStep (w + k - t) (fun win j => tmerKey H w t seed win j)
        (fun p => p % w) := rfl

theorem sample_eq_least_mod (H : HasherFn) (w k t seed : ℕ) (window : List ℕ)
    (hw : 1 ≤ w) (ht : t ≤ k)
    (hex : ∃ i, i < w + k - t ∧ tmerKey H w t seed window i < U64MAX) :
    ∃ p, IsLeastO (fun i => some (tmerKey H w t seed window i)) (w + k - t) p ∧
      sample H w k t seed window = some (p % w) := by
  have hnum : (w + k - 1) - t + 1 = w + k - t := by omega
  have hL := scanLoop_least U64MAX (tmerKey H w t seed window) (w + k - t) hex
  refine ⟨(scanLoop U64MAX (tmerKey H w t seed window) (w + k - t)).1, hL.1, ?_⟩
  simp only [sample, hnum]
  rw [if_pos hL.1.1]

theorem equiv_lemma_mod (H : HasherFn) (w k t seed : ℕ) (s : List ℕ) (n : ℕ)
    (hw : 2 ≤ w) (ht : t ≤ k) (hb : HBounded H) (hn : 1 ≤ n) :
    (List.range n).map (fun i => sample H w k t seed (sub s i (w + k - 1))) =
      ((streamRun (sampleStream H w k t seed) [] s (w + k - 1) n).2).map some := by
  have hm : 1 ≤ w + k - t := by omega
  have hloc : ∀ i j, j < w + k - t →
      tmerKey H w t seed (sub s i (w + k - 1)) j = tmerKey H w t seed s (i + j) := by
    intro i j hj
    unfold tmerKey
    rw [sub_sub s i (w + k - 1) j t (by omega)]
  rw [sampleStream_eq_simpleStep_mod]
  obtain ⟨_, ho⟩ := simpleRun_spec (w + k - t) _ (fun p => p % w) s (w + k - 1)
    (tmerKey H w t seed s) hm hloc n hn
  rw [ho, List.map_map]
  apply List.map_congr_left
  intro i _
  obtain ⟨p, hpL, hps⟩ := sample_eq_least_mod H w k t seed (sub s i (w + k - 1))
    (by omega) ht ⟨0, by omega, hb _ _ _ _⟩
  rw [hps]
  have hq := queryBuf_allSome_least (tmerKey H w t seed s) i (w + k - t) hm
  have hpL2 : IsLeastO (fun j => some (tmerKey H w t seed s (i + j))) (w + k - t) p :=
    IsLeastO_congr (fun j hj => by rw [hloc i j hj]) hpL
  rw [IsLeastO_unique hpL2 hq]
  rfl

end mod_sampling

namespace rotational_alt

theorem sampleStream_eq_simpleStep_alt (H : HasherFn) (w k seed : ℕ) :
    sampleStream H w k seed =
      simpleStep w (fun win j => kmerKey H w k seed win j) (fun p => p) := rfl

theorem key_lt_sentinel_alt (H : HasherFn) (w k seed : ℕ) (window : List ℕ) (i : ℕ)
    (hk : 1 ≤ k) (hw : 1 ≤ w) (hc : 65 ≤ window.getD i 0) :
    kmerKey H w k seed window i < sentinel := by
  unfold kmerKey sentinel
  rw [Prod.Lex.lt_iff]
  left
  have hs : 2 ≤ strideSum (sub window i k) w k := by
    apply strideSum_ge _ _ _ hk hw
    rw [getD_sub window i k 0 (by omega)]
    simpa using hc
  dsimp only
  omega

theorem sample_eq_least_alt (H : HasherFn) (w k seed : ℕ) (window : List ℕ)
    (hex : ∃ i, i < w ∧ kmerKey H w k seed window i < sentinel) :
    ∃ p, IsLeastO (fun i => some (kmerKey H w k seed window i)) w p ∧
      sample H w k seed window = some p := by
  have hL := scanLoop_least sentinel (kmerKey H w k seed window) w hex
  refine ⟨(scanLoop sentinel (kmerKey H w k seed window) w).1, hL.1, ?_⟩
  simp only [sample]
  rw [if_pos hL.1.1]

theorem equiv_lemma_alt (H : HasherFn) (w k seed : ℕ) (s : List ℕ) (n : ℕ)
    (hw : 2 ≤ w) (hk : 1 ≤ k) (hn : 1 ≤ n)
    (hdna : ∀ c ∈ s, isDNA c) (hlen : (w + k - 1) + (n - 1) ≤ s.length) :
    (List.range n).map (fun i => sample H w k seed (sub s i (w + k - 1))) =
      ((streamRun (sampleStream H w k seed) [] s (w + k - 1) n).2).map some := by
  have hm : 1 ≤ w := by omega
  have hloc : ∀ i j, j < w →
      kmerKey H w k seed (sub s i (w + k - 1)) j = kmerKey H w k seed s (i + j) := by
    intro i j hj
    unfold kmerKey
    rw [sub_sub s i (w + k - 1) j k (by omega)]
  rw [sampleStream_eq_simpleStep_alt]
  obtain ⟨_, ho⟩ := simpleRun_spec w _ (fun p => p) s (w + k - 1)
    (kmerKey H w k seed s) hm hloc n hn
  rw [ho, List.map_map]
  apply List.map_congr_left
  intro i hi
  have hi2 : i < n := List.mem_range.mp hi
  have hchar : 65 ≤ (sub s i (w + k - 1)).getD 0 0 := by
    rw [getD_sub s i (w + k - 1) 0 (by omega)]
    have hidx : i + 0 < s.length := by omega
    have hmem : s.getD (i + 0) 0 ∈ s := by
      rw [List.getD_eq_getElem?_getD, List.getElem?_eq_getElem hidx]
      exact List.getElem_mem _
    exact (isDNA_bounds _ (hdna _ hmem)).1
  obtain ⟨p, hpL, hps⟩ := sample_eq_least_alt H w k seed (sub s i (w + k - 1))
    ⟨0, by omega, key_lt_sentinel_alt H w k seed _ 0 hk (by omega) hchar⟩
  rw [hps]
  have hq := queryBuf_allSome_least (kmerKey H w k seed s) i w hm
  have hpL2 : IsLeastO (fun j => some (kmerKey H w k seed s (i + j))) w p :=
    IsLeastO_congr (fun j hj => by rw [hloc i j hj]) hpL
  rw [IsLeastO_unique hpL2 hq]
  rfl

end rotational_alt

namespace rotational_orig

theorem key_lt_sentinel_orig (H : HasherFn) (w k seed : ℕ) (window : List ℕ) (i : ℕ) :
    kmerKey H w k seed window i < sentinel := by
  unfold kmerKey sentinel
  rw [Prod.Lex.lt_iff]
  left
  unfold uhsLabel
  split <;> norm_num

theorem sampleStream_eq_simpleStep_orig (H : HasherFn) (w k seed : ℕ) :
    sampleStream H w k seed =
      simpleStep w (fun win j => kmerKey H w k seed win j) (fun p => p) := rfl

theorem sample_eq_least_orig (H : HasherFn) (w k seed : ℕ) (window : List ℕ)
    (hw : 1 ≤ w)
    (huhs : ∃ i, i < w ∧ in_uhs (sub window i k) w k = true) :
    ∃ p, IsLeastO (fun i => some (kmerKey H w k seed window i)) w p ∧
      sample H w k seed window = some p := by
  have hL := scanLoop_least sentinel (kmerKey H w k seed window) w
    ⟨0, by omega, key_lt_sentinel_orig H w k seed window 0⟩
  obtain ⟨i0, hi0, hu0⟩ := huhs
  obtain ⟨hpw, x, hx, hmin, hleft⟩ := hL.1
  simp only [Option.some.injEq] at hx
  have hkey0 : kmerKey H w k seed window i0 =
      toLex (0, H (sub window i0 k) w k seed) := by
    unfold kmerKey uhsLabel
    rw [if_pos hu0]
  have hle2 : x ≤ toLex (0, H (sub window i0 k) w k seed) := by
    rw [← hkey0]
    exact hmin i0 hi0 _ rfl
  have hlab : (ofLex x).1 = 0 := by
    rcases (Prod.Lex.le_iff (ofLex x) (0, H (sub window i0 k) w k seed)).mp hle2 with
      hlt | ⟨heq, _⟩
    · simp at hlt
    · exact heq
  refine ⟨(scanLoop sentinel (kmerKey H w k seed window) w).1, hL.1, ?_⟩
  simp only [sample]
  rw [← hL.2, hx, if_neg (by simp [hlab]), if_pos hpw]

end rotational_orig

/-- Every byte value remaps below the alphabet size. -/
theorem char_remap_le (c : ℕ) : char_remap c ≤ 3 := by
  unfold char_remap
  split_ifs <;> omega

/-- Sum of the remapped window characters at positions x, x + w, ...,
x + (k/w - 1)w; kmer i has class j sum equal to Tsum at x = i + j when w
divides k. -/
def Tsum (win : List ℕ) (w k x : ℕ) : ℕ :=
  ((List.range (k / w)).map (fun m => char_remap (win.getD (x + m * w) 0))).sum

theorem classSum_eq_Tsum (win : List ℕ) (w k i j : ℕ) (hw : 1 ≤ w) (hj : j < w)
    (hdvd : w ∣ k) : classSum (sub win i k) w k j = Tsum win w k (i + j) := by
  obtain ⟨q, rfl⟩ := hdvd
  have hqw : w * q / w = q := Nat.mul_div_cancel_left q (by omega)
  have hcnt : (w * q - j + (w - 1)) / w = q := by
    rcases Nat.eq_zero_or_pos q with hq | hq
    · subst hq
      simp only [Nat.mul_zero, Nat.zero_sub]
      exact Nat.div_eq_of_lt (by omega)
    · have hwq : w ≤ w * q := Nat.le_mul_of_pos_right w hq
      have hrw : w * q - j + (w - 1) = w * q + (w - 1 - j) := by omega
      rw [hrw, Nat.mul_add_div (by omega)]
      rw [Nat.div_eq_of_lt (by omega)]
      omega
  unfold classSum Tsum
  rw [hcnt, hqw]
  refine congrArg List.sum ?_
  apply List.map_congr_left
  intro m hm
  have hm2 : m < q := List.mem_range.mp hm
  have hin : j + m * w < w * q := by
    have h1 : m * w + w ≤ q * w := by
      have := Nat.mul_le_mul_right w (by omega : m + 1 ≤ q)
      calc m * w + w = (m + 1) * w := by ring
        _ ≤ q * w := this
    calc j + m * w < w + m * w := by omega
      _ = m * w + w := by omega
      _ ≤ q * w := h1
      _ = w * q := by ring
  rw [getD_sub win i (w * q) (j + m * w) hin]
  exact congrArg (fun z => char_remap (win.getD z 0)) (by omega)

theorem Tsum_shift (win : List ℕ) (w k x : ℕ) (hw : 1 ≤ w) (hdvd : w ∣ k) :
    Tsum win w k (x + w) ≤ Tsum win w k x + 3 := by
  obtain ⟨q, rfl⟩ := hdvd
  have hqw : w * q / w = q := Nat.mul_div_cancel_left q (by omega)
  have key : Tsum win w (w * q) (x + w) + char_remap (win.getD x 0) =
      Tsum win w (w * q) x + char_remap (win.getD (x + q * w) 0) := by
    unfold Tsum
    rw [hqw]
    have h1 : ((List.range (q + 1)).map
        (fun m => char_remap (win.getD (x + m * w) 0))).sum =
        char_remap (win.getD x 0) +
        ((List.range q).map (fun m => char_remap (win.getD (x + w + m * w) 0))).sum := by
      rw [List.range_succ_eq_map, List.map_cons, List.sum_cons, List.map_map]
      congr 1
      · exact congrArg (fun z => char_remap (win.getD z 0)) (by omega)
      · apply congrArg List.sum
        apply List.map_congr_left
        intro m _
        simp only [Function.comp_apply]
        refine congrArg (fun z => char_remap (win.getD z 0)) ?_
        calc x + Nat.succ m * w = x + (m * w + w) := by rw [Nat.succ_mul]
          _ = x + w + m * w := by omega
    have h2 : ((List.range (q + 1)).map
        (fun m => char_remap (win.getD (x + m * w) 0))).sum =
        ((List.range q).map (fun m => char_remap (win.getD (x + m * w) 0))).sum +
        char_remap (win.getD (x + q * w) 0) := by
      rw [List.range_succ, List.map_append, List.sum_append]
      simp
    omega
  have hle := char_remap_le (win.getD (x + q * w) 0)
  omega

theorem in_uhs_iff (kmer : List ℕ) (w k : ℕ) :
    in_uhs kmer w k = true ↔
      ∀ j, j < w → j ≠ 0 → classSum kmer w k j ≤ classSum kmer w k 0 + 3 := by
  unfold in_uhs
  rw [List.all_eq_true]
  constructor
  · intro h j hj hj0
    have h2 := h j (List.mem_range.mpr hj)
    simp only [Bool.or_eq_true, beq_iff_eq, decide_eq_true_eq] at h2
    rcases h2 with h1 | h1
    · exact absurd h1 hj0
    · exact h1
  · intro h j hjmem
    by_cases hj0 : j = 0
    · subst hj0
      simp
    · simp only [Bool.or_eq_true, beq_iff_eq, decide_eq_true_eq]
      exact Or.inr (h j (List.mem_range.mp hjmem) hj0)

/-- Theorem validating the invariant of the restricted set: when w divides k,
every window contains at least one kmer in the restricted set (the tolerance
sigma - 1 = 3 equals the largest possible remapped-character difference, which
makes the rotation argument go through). -/
theorem uhs_exists (win : List ℕ) (w k : ℕ) (hw : 1 ≤ w) (hdvd : w ∣ k) :
    ∃ i, i < w ∧ in_uhs (sub win i k) w k = true := by
  obtain ⟨x, hx, hmax⟩ := Finset.exists_max_image (Finset.range (2 * w - 1))
    (Tsum win w k) ⟨0, Finset.mem_range.mpr (by omega)⟩
  have hx2 : x < 2 * w - 1 := Finset.mem_range.mp hx
  by_cases hxw : x < w
  · refine ⟨x, hxw, ?_⟩
    rw [in_uhs_iff]
    intro j hj hj0
    rw [classSum_eq_Tsum win w k x j hw hj hdvd,
      classSum_eq_Tsum win w k x 0 hw (by omega) hdvd]
    have hle := hmax (x + j) (Finset.mem_range.mpr (by omega))
    simp only [Nat.add_zero]
    omega
  · push_neg at hxw
    refine ⟨x - w, by omega, ?_⟩
    rw [in_uhs_iff]
    intro j hj hj0
    rw [classSum_eq_Tsum win w k (x - w) j hw hj hdvd,
      classSum_eq_Tsum win w k (x - w) 0 hw (by omega) hdvd]
    have hshift : Tsum win w k x ≤ Tsum win w k (x - w) + 3 := by
      have hts := Tsum_shift win w k (x - w) hw hdvd
      have hxx : x - w + w = x := by omega
      rwa [hxx] at hts
    have hle := hmax ((x - w) + j) (Finset.mem_range.mpr (by omega))
    simp only [Nat.add_zero]
    omega

namespace rotational_orig

theorem equiv_lemma_orig (H : HasherFn) (w k seed : ℕ) (s : List ℕ) (n : ℕ)
    (hw : 2 ≤ w) (hdvd : w ∣ k) (hn : 1 ≤ n) :
    (List.range n).map (fun i => sample H w k seed (sub s i (w + k - 1))) =
      ((streamRun (sampleStream H w k seed) [] s (w + k - 1) n).2).map some := by
  have hm : 1 ≤ w := by omega
  have hloc : ∀ i j, j < w →
      kmerKey H w k seed (sub s i (w + k - 1)) j = kmerKey H w k seed s (i + j) := by
    intro i j hj
    unfold kmerKey
    rw [sub_sub s i (w + k - 1) j k (by omega)]
  rw [sampleStream_eq_simpleStep_orig]
  obtain ⟨_, ho⟩ := simpleRun_spec w _ (fun p => p) s (w + k - 1)
    (kmerKey H w k seed s) hm hloc n hn
  rw [ho, List.map_map]
  apply List.map_congr_left
  intro i _
  obtain ⟨p, hpL, hps⟩ := sample_eq_least_orig H w k seed (sub s i (w + k - 1)) hm
    (uhs_exists (sub s i (w + k - 1)) w k hm hdvd)
  rw [hps]
  have hq := queryBuf_allSome_least (kmerKey H w k seed s) i w hm
  have hpL2 := IsLeastO_congr (fun j hj => by rw [hloc i j hj]) hpL
  rw [IsLeastO_unique hpL2 hq]
  rfl

end rotational_orig

namespace decycling

theorem key_lt_sentinel_dec (H : HasherFn) (w k seed : ℕ) (g : List ℂ)
    (window : List ℕ) (i : ℕ) :
    kmerKey H w k seed g window i < decSentinel := by
  unfold kmerKey decSentinel
  rw [Prod.Lex.lt_iff]
  left
  dsimp only
  unfold decLabel
  split <;> norm_num

theorem sampleStream_eq_simpleStep_dec (H : HasherFn) (w k seed : ℕ) (g : List ℂ) :
    sampleStream H w k seed g =
      simpleStep w (fun win j => kmerKey H w k seed g win j) (fun p => p) := rfl

theorem sample_eq_least_dec (H : HasherFn) (w k seed : ℕ) (g : List ℂ)
    (window : List ℕ) (hw : 1 ≤ w) :
    ∃ p, IsLeastO (fun i => some (kmerKey H w k seed g window i)) w p ∧
      sample H w k seed g window = some p := by
  have hL := scanLoop_least decSentinel (kmerKey H w k seed g window) w
    ⟨0, by omega, key_lt_sentinel_dec H w k seed g window 0⟩
  refine ⟨(scanLoop decSentinel (kmerKey H w k seed g window) w).1, hL.1, ?_⟩
  simp only [sample]
  rw [if_pos hL.1.1]

theorem equiv_lemma_dec (H : HasherFn) (w k seed : ℕ) (g : List ℂ) (s : List ℕ)
    (n : ℕ) (hw : 2 ≤ w) (hn : 1 ≤ n) :
    (List.range n).map (fun i => sample H w k seed g (sub s i (w + k - 1))) =
      ((streamRun (sampleStream H w k seed g) [] s (w + k - 1) n).2).map some := by
  have hm : 1 ≤ w := by omega
  have hloc : ∀ i j, j < w →
      kmerKey H w k seed g (sub s i (w + k - 1)) j = kmerKey H w k seed g s (i + j) := by
    intro i j hj
    unfold kmerKey
    rw [sub_sub s i (w + k - 1) j k (by omega)]
  rw [sampleStream_eq_simpleStep_dec]
  obtain ⟨_, ho⟩ := simpleRun_spec w _ (fun p => p) s (w + k - 1)
    (kmerKey H w k seed g s) hm hloc n hn
  rw [ho, List.map_map]
  apply List.map_congr_left
  intro i _
  obtain ⟨p, hpL, hps⟩ := sample_eq_least_dec H w k seed g (sub s i (w + k - 1)) hm
  rw [hps]
  have hq := queryBuf_allSome_least (kmerKey H w k seed g s) i w hm
  have hpL2 := IsLeastO_congr (fun j hj => by rw [hloc i j hj]) hpL
  rw [IsLeastO_unique hpL2 hq]
  rfl

end decycling

namespace double_decycling

theorem key_lt_sentinel_ddec (H : HasherFn) (w k seed : ℕ) (g : List ℂ)
    (window : List ℕ) (i : ℕ) :
    kmerKey H w k seed g window i < decSentinel := by
  unfold kmerKey decSentinel
  rw [Prod.Lex.lt_iff]
  left
  dsimp only
  unfold ddecLabel
  split
  · norm_num
  · split <;> norm_num

theorem sampleStream_eq_simpleStep_ddec (H : HasherFn) (w k seed : ℕ) (g : List ℂ) :
    sampleStream H w k seed g =
      simpleStep w (fun win j => kmerKey H w k seed g win j) (fun p => p) := rfl

theorem sample_eq_least_ddec (H : HasherFn) (w k seed : ℕ) (g : List ℂ)
    (window : List ℕ) (hw : 1 ≤ w) :
    ∃ p, IsLeastO (fun i => some (kmerKey H w k seed g window i)) w p ∧
      sample H w k seed g window = some p := by
  have hL := scanLoop_least decSentinel (kmerKey H w k seed g window) w
    ⟨0, by omega, key_lt_sentinel_ddec H w k seed g window 0⟩
  refine ⟨(scanLoop decSentinel (kmerKey H w k seed g window) w).1, hL.1, ?_⟩
  simp only [sample]
  rw [if_pos hL.1.1]

theorem equiv_lemma_ddec (H : HasherFn) (w k seed : ℕ) (g : List ℂ) (s : List ℕ)
    (n : ℕ) (hw : 2 ≤ w) (hn : 1 ≤ n) :
    (List.range n).map (fun i => sample H w k seed g (sub s i (w + k - 1))) =
      ((streamRun (sampleStream H w k seed g) [] s (w + k - 1) n).2).map some := by
  have hm : 1 ≤ w := by omega
  have hloc : ∀ i j, j < w →
      kmerKey H w k seed g (sub s i (w + k - 1)) j = kmerKey H w k seed g s (i + j) := by
    intro i j hj
    unfold kmerKey
    rw [sub_sub s i (w + k - 1) j k (by omega)]
  rw [sampleStream_eq_simpleStep_ddec]
  obtain ⟨_, ho⟩ := simpleRun_spec w _ (fun p => p) s (w + k - 1)
    (kmerKey H w k seed g s) hm hloc n hn
  rw [ho, List.map_map]
  apply List.map_congr_left
  intro i _
  obtain ⟨p, hpL, hps⟩ := sample_eq_least_ddec H w k seed g (sub s i (w + k - 1)) hm
  rw [hps]
  have hq := queryBuf_allSome_least (kmerKey H w k seed g s) i w hm
  have hpL2 := IsLeastO_congr (fun j hj => by rw [hloc i j hj]) hpL
  rw [IsLeastO_unique hpL2 hq]
  rfl

end double_decycling

namespace miniception

/-- Canonical buffer of the inner tmer enumerator when it has just processed
the kmer at window offset i. -/
def ibufCanon (H : HasherFn) (w t seed : ℕ) (window : List ℕ) (w0 i : ℕ) :
    List (Option ℕ) :=
  (List.range (w0 + 1)).map (fun j => some (tKey H w t seed window (i + j)))

/-- Charged test of the kmer at window offset i as computed by both sample
overloads: the queried leftmost-minimum position among its k - t + 1 tmers is
0 or k - t. -/
def charged (H : HasherFn) (w k t seed : ℕ) (window : List ℕ) (i : ℕ) : Prop :=
  queryBuf (ibufCanon H w t seed window (k - t) i) = 0 ∨
  queryBuf (ibufCanon H w t seed window (k - t) i) = k - t

instance (H : HasherFn) (w k t seed : ℕ) (window : List ℕ) (i : ℕ) :
    Decidable (charged H w k t seed window i) := by
  unfold charged
  infer_instance

/-- Candidate offered to the outer kmer enumerator for the kmer at window
offset i: its Hasher key when charged, a skipped position otherwise. -/
def mKey (H : HasherFn) (w k t seed : ℕ) (window : List ℕ) (i : ℕ) : Option ℕ :=
  if charged H w k t seed window i then some (kKey H w k seed window i) else none

theorem innerAdvance_canon (H : HasherFn) (w k t seed : ℕ) (window : List ℕ)
    (ibuf : List (Option ℕ)) (i : ℕ)
    (hprev : i = 0 ∨ ibuf = ibufCanon H w t seed window (k - t) (i - 1)) :
    innerAdvance H w k t seed window ibuf i =
      ibufCanon H w t seed window (k - t) i := by
  by_cases h0 : i = 0
  · subst h0
    unfold innerAdvance ibufCanon
    rw [if_pos rfl]
  · rcases hprev with h | hc
    · exact absurd h h0
    · obtain ⟨i0, rfl⟩ : ∃ i0, i = i0 + 1 := ⟨i - 1, by omega⟩
      unfold innerAdvance
      rw [if_neg h0]
      have hc2 : ibuf = ibufCanon H w t seed window (k - t) i0 := by
        simpa using hc
      rw [hc2]
      unfold ibufCanon
      have hv : (some (tKey H w t seed window (i0 + 1 + (k - t))) : Option ℕ) =
          (fun q => some (tKey H w t seed window q)) (i0 + (k - t + 1)) := by
        refine congrArg (fun q => some (tKey H w t seed window q)) ?_
        omega
      rw [hv, pushT_full (k - t + 1) (by omega) (fun q => some (tKey H w t seed window q)) i0]

theorem fold_spec (H : HasherFn) (w k t seed : ℕ) (window : List ℕ) (n : ℕ)
    (hn : 1 ≤ n) :
    (List.range n).foldl
      (fun (acc : List (Option ℕ) × ℕ × ℕ) i =>
        let ibuf := innerAdvance H w k t seed window acc.1 i
        let tp := queryBuf ibuf
        if tp = 0 ∨ tp = k - t then
          let hash := kKey H w k seed window i
          if hash < acc.2.2 then (ibuf, i, hash) else (ibuf, acc.2)
        else (ibuf, acc.2))
      ([], U64MAX, U64MAX) =
    (ibufCanon H w t seed window (k - t) (n - 1),
      scanLoopO U64MAX (mKey H w k t seed window) n) := by
  induction n with
  | zero => omega
  | succ n ih =>
    rw [List.range_succ, List.foldl_append, List.foldl_cons, List.foldl_nil]
    by_cases hn0 : n = 0
    · subst hn0
      simp only [List.range_zero, List.foldl_nil]
      rw [innerAdvance_canon H w k t seed window [] 0 (Or.inl rfl)]
      have hs0 : scanLoopO U64MAX (mKey H w k t seed window) 0 = (U64MAX, U64MAX) := rfl
      by_cases hch : queryBuf (ibufCanon H w t seed window (k - t) 0) = 0 ∨
          queryBuf (ibufCanon H w t seed window (k - t) 0) = k - t
      · rw [if_pos hch, scanLoopO_succ]
        have hm : mKey H w k t seed window 0 = some (kKey H w k seed window 0) := by
          unfold mKey
          rw [if_pos (show charged H w k t seed window 0 from hch)]
        rw [hm, hs0]
        dsimp only
        by_cases hlt : kKey H w k seed window 0 < U64MAX
        · rw [if_pos hlt, if_pos hlt]
        · rw [if_neg hlt, if_neg hlt]
      · rw [if_neg hch, scanLoopO_succ]
        have hm : mKey H w k t seed window 0 = none := by
          unfold mKey
          rw [if_neg (show ¬ charged H w k t seed window 0 from hch)]
        rw [hm, hs0]
    · have ih2 := ih (by omega)
      rw [ih2]
      dsimp only
      have hib : innerAdvance H w k t seed window
          (ibufCanon H w t seed window (k - t) (n - 1)) n =
          ibufCanon H w t seed window (k - t) n :=
        innerAdvance_canon H w k t seed window _ n (Or.inr rfl)
      rw [hib]
      have hns : n + 1 - 1 = n := by omega
      rw [hns]
      by_cases hch : queryBuf (ibufCanon H w t seed window (k - t) n) = 0 ∨
          queryBuf (ibufCanon H w t seed window (k - t) n) = k - t
      · rw [if_pos hch, scanLoopO_succ]
        have hm : mKey H w k t seed window n = some (kKey H w k seed window n) := by
          unfold mKey
          rw [if_pos (show charged H w k t seed window n from hch)]
        rw [hm]
        dsimp only
        by_cases hlt : kKey H w k seed window n <
            (scanLoopO U64MAX (mKey H w k t seed window) n).2
        · rw [if_pos hlt, if_pos hlt]
        · rw [if_neg hlt, if_neg hlt]
      · rw [if_neg hch, scanLoopO_succ]
        have hm : mKey H w k t seed window n = none := by
          unfold mKey
          rw [if_neg (show ¬ charged H w k t seed window n from hch)]
        rw [hm]

theorem sample_eq (H : HasherFn) (w k t seed : ℕ) (window : List ℕ) (hw : 1 ≤ w) :
    sample H w k t seed window =
      (if (scanLoopO U64MAX (mKey H w k t seed window) w).1 < w
       then some (scanLoopO U64MAX (mKey H w k t seed window) w).1 else none) := by
  simp only [sample]
  rw [fold_spec H w k t seed window w hw]

theorem streamFold_spec (H : HasherFn) (w k t seed : ℕ) (window : List ℕ)
    (n : ℕ) (hn : 1 ≤ n) (hnw : n ≤ w) :
    (List.range n).foldl
      (fun (acc : StreamState) i =>
        let ibuf := innerAdvance H w k t seed window acc.1 i
        let tp := queryBuf ibuf
        if tp = 0 ∨ tp = k - t then
          (ibuf, pushT w acc.2 (some (kKey H w k seed window i)))
        else (ibuf, pushT w acc.2 none))
      ([], []) =
    (ibufCanon H w t seed window (k - t) (n - 1),
      (List.range n).map (fun i => mKey H w k t seed window i)) := by
  induction n with
  | zero => omega
  | succ n ih =>
    rw [List.range_succ, List.foldl_append, List.foldl_cons, List.foldl_nil]
    by_cases hn0 : n = 0
    · subst hn0
      simp only [List.range_zero, List.foldl_nil]
      rw [innerAdvance_canon H w k t seed window [] 0 (Or.inl rfl)]
      by_cases hch : queryBuf (ibufCanon H w t seed window (k - t) 0) = 0 ∨
          queryBuf (ibufCanon H w t seed window (k - t) 0) = k - t
      · rw [if_pos hch]
        have hm : mKey H w k t seed window 0 = some (kKey H w k seed window 0) := by
          unfold mKey
          rw [if_pos (show charged H w k t seed window 0 from hch)]
        rw [pushT_grow w [] _ (by simpa using hnw)]
        simp [hm]
      · rw [if_neg hch]
        have hm : mKey H w k t seed window 0 = none := by
          unfold mKey
          rw [if_neg (show ¬ charged H w k t seed window 0 from hch)]
        rw [pushT_grow w [] _ (by simpa using hnw)]
        simp [hm]
    · have ih2 := ih (by omega) (by omega)
      rw [ih2]
      dsimp only
      have hib : innerAdvance H w k t seed window
          (ibufCanon H w t seed window (k - t) (n - 1)) n =
          ibufCanon H w t seed window (k - t) n :=
        innerAdvance_canon H w k t seed window _ n (Or.inr rfl)
      rw [hib]
      have hns : n + 1 - 1 = n := by omega
      rw [hns]
      have hlen : ((List.range n).map (fun i => mKey H w k t seed window i)).length + 1 ≤ w := by
        simpa using hnw
      by_cases hch : queryBuf (ibufCanon H w t seed window (k - t) n) = 0 ∨
          queryBuf (ibufCanon H w t seed window (k - t) n) = k - t
      · rw [if_pos hch]
        have hm : mKey H w k t seed window n = some (kKey H w k seed window n) := by
          unfold mKey
          rw [if_pos (show charged H w k t seed window n from hch)]
        rw [pushT_grow w _ _ hlen, ← hm, List.map_append]
        rfl
      · rw [if_neg hch]
        have hm : mKey H w k t seed window n = none := by
          unfold mKey
          rw [if_neg (show ¬ charged H w k t seed window n from hch)]
        rw [pushT_grow w _ _ hlen, ← hm, List.map_append]
        rfl

theorem tKey_window (H : HasherFn) (w t seed : ℕ) (s : List ℕ) (ι l q : ℕ)
    (h : q + t ≤ l) : tKey H w t seed (sub s ι l) q = tKey H w t seed s (ι + q) := by
  unfold tKey
  rw [sub_sub s ι l q t h]

theorem kKey_window (H : HasherFn) (w k seed : ℕ) (s : List ℕ) (ι l i : ℕ)
    (h : i + k ≤ l) : kKey H w k seed (sub s ι l) i = kKey H w k seed s (ι + i) := by
  unfold kKey
  rw [sub_sub s ι l i k h]

theorem ibufCanon_window (H : HasherFn) (w k t seed : ℕ) (s : List ℕ) (ι l i : ℕ)
    (ht : t ≤ k) (h : i + k ≤ l) :
    ibufCanon H w t seed (sub s ι l) (k - t) i = ibufCanon H w t seed s (k - t) (ι + i) := by
  unfold ibufCanon
  apply List.map_congr_left
  intro j hj
  have hj2 : j < k - t + 1 := List.mem_range.mp hj
  rw [tKey_window H w t seed s ι l (i + j) (by omega)]
  refine congrArg (fun q => some (tKey H w t seed s q)) ?_
  omega

theorem charged_window (H : HasherFn) (w k t seed : ℕ) (s : List ℕ) (ι l i : ℕ)
    (ht : t ≤ k) (h : i + k ≤ l) :
    charged H w k t seed (sub s ι l) i ↔ charged H w k t seed s (ι + i) := by
  unfold charged
  rw [ibufCanon_window H w k t seed s ι l i ht h]

theorem mKey_window (H : HasherFn) (w k t seed : ℕ) (s : List ℕ) (ι l i : ℕ)
    (ht : t ≤ k) (h : i + k ≤ l) :
    mKey H w k t seed (sub s ι l) i = mKey H w k t seed s (ι + i) := by
  unfold mKey
  by_cases hch : charged H w k t seed s (ι + i)
  · rw [if_pos ((charged_window H w k t seed s ι l i ht h).mpr hch), if_pos hch,
      kKey_window H w k seed s ι l i h]
  · rw [if_neg (fun hc => hch ((charged_window H w k t seed s ι l i ht h).mp hc)),
      if_neg hch]

theorem run_spec (H : HasherFn) (w k t seed : ℕ) (s : List ℕ)
    (hw : 2 ≤ w) (ht : t ≤ k) :
    ∀ n, 1 ≤ n →
      (streamRun (sampleStream H w k t seed) (([], []) : StreamState) s (w + k - 1) n).1 =
        (ibufCanon H w t seed s (k - t) (n - 1 + (w - 1)),
          (List.range w).map (fun i => mKey H w k t seed s (n - 1 + i))) ∧
      (streamRun (sampleStream H w k t seed) (([], []) : StreamState) s (w + k - 1) n).2 =
        (List.range n).map (fun ι =>
          if queryBuf ((List.range w).map (fun i => mKey H w k t seed s (ι + i))) < w
          then some (queryBuf ((List.range w).map (fun i => mKey H w k t seed s (ι + i))))
          else none) := by
  intro n hn
  induction n with
  | zero => omega
  | succ n ih =>
    by_cases hn0 : n = 0
    · subst hn0
      have hstep : sampleStream H w k t seed ([], []) (sub s 0 (w + k - 1)) (0 == 0) =
          ((ibufCanon H w t seed s (k - t) (0 + (w - 1)),
            (List.range w).map (fun i => mKey H w k t seed s (0 + i))),
           if queryBuf ((List.range w).map (fun i => mKey H w k t seed s (0 + i))) < w
           then some (queryBuf ((List.range w).map (fun i => mKey H w k t seed s (0 + i))))
           else none) := by
        simp only [sampleStream]
        rw [if_pos (show ((0 : ℕ) == 0) = true from rfl)]
        rw [streamFold_spec H w k t seed (sub s 0 (w + k - 1)) w (by omega) (by omega)]
        have hob : (List.range w).map
            (fun i => mKey H w k t seed (sub s 0 (w + k - 1)) i) =
            (List.range w).map (fun i => mKey H w k t seed s (0 + i)) := by
          apply List.map_congr_left
          intro i hi
          rw [mKey_window H w k t seed s 0 (w + k - 1) i ht
            (by have := List.mem_range.mp hi; omega)]
        have hibc : ibufCanon H w t seed (sub s 0 (w + k - 1)) (k - t) (w - 1) =
            ibufCanon H w t seed s (k - t) (0 + (w - 1)) := by
          rw [ibufCanon_window H w k t seed s 0 (w + k - 1) (w - 1) ht (by omega)]
        rw [hob, hibc]
      constructor
      · show (sampleStream H w k t seed ([], []) (sub s 0 (w + k - 1)) (0 == 0)).1 = _
        rw [hstep]
      · show [] ++ [(sampleStream H w k t seed ([], []) (sub s 0 (w + k - 1)) (0 == 0)).2] = _
        rw [hstep]
        simp [List.range_succ]
    · have hn1 : 1 ≤ n := by omega
      obtain ⟨ihs, iho⟩ := ih hn1
      have hb : (n == 0) = false := by simp [hn0]
      have hobuf : (if queryBuf (ibufCanon H w t seed s (k - t) (n + (w - 1))) = 0 ∨
            queryBuf (ibufCanon H w t seed s (k - t) (n + (w - 1))) = k - t then
            pushT w ((List.range w).map (fun i => mKey H w k t seed s (n - 1 + i)))
              (some (kKey H w k seed s (n + (w - 1))))
          else
            pushT w ((List.range w).map (fun i => mKey H w k t seed s (n - 1 + i))) none) =
          (List.range w).map (fun i => mKey H w k t seed s (n + i)) := by
        have hcomb : (if queryBuf (ibufCanon H w t seed s (k - t) (n + (w - 1))) = 0 ∨
            queryBuf (ibufCanon H w t seed s (k - t) (n + (w - 1))) = k - t then
              pushT w ((List.range w).map (fun i => mKey H w k t seed s (n - 1 + i)))
                (some (kKey H w k seed s (n + (w - 1))))
            else
              pushT w ((List.range w).map (fun i => mKey H w k t seed s (n - 1 + i))) none) =
            pushT w ((List.range w).map (fun i => mKey H w k t seed s (n - 1 + i)))
              (mKey H w k t seed s (n + (w - 1))) := by
          unfold mKey
          by_cases hch : charged H w k t seed s (n + (w - 1))
          · rw [if_pos (show (queryBuf (ibufCanon H w t seed s (k - t) (n + (w - 1))) = 0 ∨
            queryBuf (ibufCanon H w t seed s (k - t) (n + (w - 1))) = k - t) from hch), if_pos hch]
          · rw [if_neg (show ¬ (queryBuf (ibufCanon H w t seed s (k - t) (n + (w - 1))) = 0 ∨
            queryBuf (ibufCanon H w t seed s (k - t) (n + (w - 1))) = k - t) from hch), if_neg hch]
        rw [hcomb]
        have hv : mKey H w k t seed s (n + (w - 1)) =
            (fun q => mKey H w k t seed s q) ((n - 1) + w) := by
          refine congrArg (mKey H w k t seed s) ?_
          omega
        rw [hv, pushT_full w (by omega) (fun q => mKey H w k t seed s q) (n - 1)]
        apply List.map_congr_left
        intro i _
        refine congrArg (mKey H w k t seed s) ?_
        omega
      have hia : innerAdvance H w k t seed (sub s n (w + k - 1))
          (ibufCanon H w t seed s (k - t) (n - 1 + (w - 1))) (w - 1) =
          ibufCanon H w t seed s (k - t) (n + (w - 1)) := by
        unfold innerAdvance
        rw [if_neg (by omega : ¬ (w - 1 = 0))]
        rw [tKey_window H w t seed s n (w + k - 1) (w - 1 + (k - t)) (by omega)]
        unfold ibufCanon
        have hv : (some (tKey H w t seed s (n + (w - 1 + (k - t)))) : Option ℕ) =
            (fun q => some (tKey H w t seed s q)) ((n - 1 + (w - 1)) + (k - t + 1)) := by
          refine congrArg (fun q => some (tKey H w t seed s q)) ?_
          omega
        rw [hv, pushT_full (k - t + 1) (by omega) (fun q => some (tKey H w t seed s q))
          (n - 1 + (w - 1))]
        apply List.map_congr_left
        intro j _
        refine congrArg (fun q => some (tKey H w t seed s q)) ?_
        omega
      have hkk : kKey H w k seed (sub s n (w + k - 1)) (w - 1) =
          kKey H w k seed s (n + (w - 1)) := by
        rw [kKey_window H w k seed s n (w + k - 1) (w - 1) (by omega)]
      have hstep : sampleStream H w k t seed
          (ibufCanon H w t seed s (k - t) (n - 1 + (w - 1)),
           (List.range w).map (fun i => mKey H w k t seed s (n - 1 + i)))
          (sub s n (w + k - 1)) (n == 0) =
          ((ibufCanon H w t seed s (k - t) (n + (w - 1)),
            (List.range w).map (fun i => mKey H w k t seed s (n + i))),
           if queryBuf ((List.range w).map (fun i => mKey H w k t seed s (n + i))) < w
           then some (queryBuf ((List.range w).map (fun i => mKey H w k t seed s (n + i))))
           else none) := by
        rw [hb]
        simp only [sampleStream]
        rw [if_neg (by simp : ¬ (false = true))]
        simp only [List.foldl_cons, List.foldl_nil]
        rw [hia, hkk]
        have hsplit : (if queryBuf (ibufCanon H w t seed s (k - t) (n + (w - 1))) = 0 ∨
              queryBuf (ibufCanon H w t seed s (k - t) (n + (w - 1))) = k - t then
              (ibufCanon H w t seed s (k - t) (n + (w - 1)),
               pushT w ((List.range w).map (fun i => mKey H w k t seed s (n - 1 + i)))
                 (some (kKey H w k seed s (n + (w - 1)))))
            else
              (ibufCanon H w t seed s (k - t) (n + (w - 1)),
               pushT w ((List.range w).map (fun i => mKey H w k t seed s (n - 1 + i)))
                 none)) =
            (ibufCanon H w t seed s (k - t) (n + (w - 1)),
             (List.range w).map (fun i => mKey H w k t seed s (n + i))) := by
          rw [← apply_ite (Prod.mk (ibufCanon H w t seed s (k - t) (n + (w - 1))))]
          rw [hobuf]
        rw [hsplit]
      constructor
      · show (sampleStream H w k t seed
            (streamRun (sampleStream H w k t seed) (([], []) : StreamState) s
              (w + k - 1) n).1 (sub s n (w + k - 1)) (n == 0)).1 = _
        rw [ihs, hstep]
        have h1 : n + 1 - 1 + (w - 1) = n + (w - 1) := by omega
        have h2 : ∀ i : ℕ, n + 1 - 1 + i = n + i := by omega
        simp only [h1, h2]
      · show (streamRun (sampleStream H w k t seed) (([], []) : StreamState) s
            (w + k - 1) n).2 ++
          [(sampleStream H w k t seed
            (streamRun (sampleStream H w k t seed) (([], []) : StreamState) s
              (w + k - 1) n).1 (sub s n (w + k - 1)) (n == 0)).2] = _
        rw [ihs, hstep, iho, List.range_succ, List.map_append]
        simp

theorem sample_eq_least_minic (H : HasherFn) (w k t seed : ℕ) (window : List ℕ)
    (hw : 1 ≤ w)
    (hex : ∃ i, i < w ∧ ∃ x, mKey H w k t seed window i = some x ∧ x < U64MAX) :
    ∃ p, IsLeastO (mKey H w k t seed window) w p ∧
      sample H w k t seed window = some p := by
  have hL := scanLoopO_least U64MAX (mKey H w k t seed window) w hex
  refine ⟨(scanLoopO U64MAX (mKey H w k t seed window) w).1, hL.1, ?_⟩
  rw [sample_eq H w k t seed window hw, if_pos hL.1.1]

theorem equiv_lemma_minic (H : HasherFn) (w k t seed : ℕ) (s : List ℕ) (n : ℕ)
    (hw : 2 ≤ w) (ht : t ≤ k) (hwU : w ≤ U64MAX) (hb : HBounded H) (hn : 1 ≤ n) :
    (List.range n).map (fun ι => sample H w k t seed (sub s ι (w + k - 1))) =
      (streamRun (sampleStream H w k t seed) (([], []) : StreamState) s
        (w + k - 1) n).2 := by
  obtain ⟨_, ho⟩ := run_spec H w k t seed s hw ht n hn
  rw [ho]
  apply List.map_congr_left
  intro ι _
  rw [sample_eq H w k t seed (sub s ι (w + k - 1)) (by omega)]
  have hcong : ∀ i, i < w → mKey H w k t seed (sub s ι (w + k - 1)) i =
      mKey H w k t seed s (ι + i) := fun i hi =>
    mKey_window H w k t seed s ι (w + k - 1) i ht (by omega)
  rw [scanLoopO_congr U64MAX _ _ w hcong]
  by_cases hex : ∃ i, i < w ∧ ∃ x, mKey H w k t seed s (ι + i) = some x
  · have hex2 : ∃ i, i < w ∧ ∃ x, mKey H w k t seed s (ι + i) = some x ∧
        x < U64MAX := by
      obtain ⟨i, hi, x, hx⟩ := hex
      refine ⟨i, hi, x, hx, ?_⟩
      unfold mKey at hx
      by_cases hch : charged H w k t seed s (ι + i)
      · rw [if_pos hch] at hx
        simp only [Option.some.injEq] at hx
        rw [← hx]
        exact hb _ _ _ _
      · rw [if_neg hch] at hx
        exact absurd hx (by simp)
    have hL := scanLoopO_least U64MAX (fun i => mKey H w k t seed s (ι + i)) w hex2
    have hq := queryBuf_canon (fun i => mKey H w k t seed s (ι + i)) w hex
    rw [if_pos hL.1.1, IsLeastO_unique hL.1 hq, if_pos hq.1]
  · push_neg at hex
    have hallnone : ∀ i, i < w → mKey H w k t seed s (ι + i) = none := by
      intro i hi
      cases hmk : mKey H w k t seed s (ι + i) with
      | none => rfl
      | some x => exact absurd hmk (hex i hi x)
    have hscan : scanLoopO U64MAX (fun i => mKey H w k t seed s (ι + i)) w =
        (U64MAX, U64MAX) := by
      rcases scanLoopO_inv U64MAX (fun i => mKey H w k t seed s (ι + i)) w with
        ⟨h1, _⟩ | ⟨h1, h2, _⟩
      · exact h1
      · exfalso
        rw [hallnone _ h1] at h2
        exact Option.noConfusion h2
    rw [hscan, if_neg (by omega : ¬ (U64MAX < w))]
    have hqn : queryAux ((List.range w).map (fun i => mKey H w k t seed s (ι + i))) =
        none := by
      rw [queryAux_eq_none_iff]
      intro o ho2
      obtain ⟨i, hi, rfl⟩ := List.mem_map.mp ho2
      exact hallnone i (List.mem_range.mp hi)
    have hqb : queryBuf ((List.range w).map (fun i => mKey H w k t seed s (ι + i))) =
        U64MAX := by
      simp [queryBuf, hqn]
    rw [hqb, if_neg (by omega : ¬ (U64MAX < w))]

end miniception

/-- Concrete Hasher instance used by witnesses: the first byte of the
substring reduced modulo 256; pure, deterministic and below the sentinel. -/
def Hbyte : HasherFn := fun s _ _ _ => s.getD 0 0 % 256

theorem Hbyte_bounded : HBounded Hbyte := by
  intro s a b c
  show s.getD 0 0 % 256 < U64MAX
  have h1 : s.getD 0 0 % 256 < 256 := Nat.mod_lt _ (by norm_num)
  have h2 : (256 : ℕ) ≤ U64MAX := by norm_num [U64MAX]
  omega

/-- Concrete Hasher instance that reverses the order of first bytes; used by
the hidden-state counterexample. -/
def Hrev : HasherFn := fun s _ _ _ => 255 - s.getD 0 0

/-- Concrete Hasher instance that is constantly the sentinel value; it is a
pure deterministic function and hence a legal Hasher per the spec. -/
def Hconst : HasherFn := fun _ _ _ _ => U64MAX

/-- C10: is_not_forward(k, w, t) returns true iff
(w + k - t - 1) mod w < w - 2, which coincides with the integer condition
(k - t - 1) mod w < w - 2 (the added w only avoids negative operands), and at
t = k the result is always false, i.e. the scheme is classified as forward. -/
theorem C10_is_not_forward (k w t : ℕ) (hw : 2 ≤ w) (ht : t ≤ k) :
    (is_not_forward k w t = true ↔ ((k : ℤ) - t - 1) % (w : ℤ) < (w : ℤ) - 2) ∧
    (t = k → is_not_forward k w t = false) := by
  constructor
  · unfold is_not_forward
    rw [decide_eq_true_iff]
    have hmod : (((w + k - t - 1) % w : ℕ) : ℤ) = ((k : ℤ) - t - 1) % (w : ℤ) := by
      have hcast : ((w + k - t - 1 : ℕ) : ℤ) = (w : ℤ) + k - t - 1 := by omega
      rw [Int.natCast_mod, hcast]
      have hshape : (w : ℤ) + k - t - 1 = ((k : ℤ) - t - 1) + 1 * w := by ring
      rw [hshape, Int.add_mul_emod_self]
    constructor
    · intro hlt
      rw [← hmod]
      have hw2 : ((w - 2 : ℕ) : ℤ) = (w : ℤ) - 2 := by omega
      omega
    · intro hlt
      rw [← hmod] at hlt
      omega
  · intro htk
    subst htk
    unfold is_not_forward
    rw [decide_eq_false_iff_not]
    have hself : w + t - t - 1 = w - 1 := by omega
    rw [hself, Nat.mod_eq_of_lt (by omega)]
    omega

/-- Witness for C10 at k = 5, w = 3, t = 2 and at t = k = 5. -/
theorem C10_witness :
    (2 ≤ 3 ∧ 2 ≤ 5 ∧
      (is_not_forward 5 3 2 = true ↔ ((5 : ℤ) - 2 - 1) % (3 : ℤ) < (3 : ℤ) - 2)) ∧
    (5 ≤ 5 ∧ is_not_forward 5 3 5 = false) := by
  refine ⟨⟨by decide, by decide, (C10_is_not_forward 5 3 2 (by decide) (by decide)).1⟩,
    by decide, (C10_is_not_forward 5 3 5 (by decide) (by decide)).2 rfl⟩

/-- C9: closed_form_density rejects every scheme name other than miniception
and mod_sampling with the unknown-scheme error and never substitutes a
default value. -/
theorem C9_unknown_scheme (name : String) (k w t : ℕ)
    (h1 : name ≠ "miniception") (h2 : name ≠ "mod_sampling") :
    closed_form_density name k w t = Except.error "unknown scheme name" := by
  unfold closed_form_density
  rw [if_neg h1, if_neg h2]

/-- Witness for C9 at the scheme name minimizer. -/
theorem C9_witness :
    ("minimizer" ≠ "miniception") ∧ ("minimizer" ≠ "mod_sampling") ∧
    closed_form_density "minimizer" 8 4 3 = Except.error "unknown scheme name" :=
  ⟨by decide, by decide, C9_unknown_scheme "minimizer" 8 4 3 (by decide) (by decide)⟩

/-- C4: the batch sample of mod_sampling equals p mod w where p is the
smallest offset among the w + k - t overlapping length-t substrings of the
window whose substring has minimal Hasher key; the Hasher stays below the
scan sentinel. -/
theorem C4_mod_sampling_batch (H : HasherFn) (w k t seed : ℕ) (window : List ℕ)
    (hw : 2 ≤ w) (ht : t ≤ k) (hb : HBounded H) :
    ∃ p, p < w + k - t ∧
      (∀ j, j < w + k - t → mod_sampling.tmerKey H w t seed window p ≤
        mod_sampling.tmerKey H w t seed window j) ∧
      (∀ j, j < p → mod_sampling.tmerKey H w t seed window p <
        mod_sampling.tmerKey H w t seed window j) ∧
      mod_sampling.sample H w k t seed window = some (p % w) := by
  obtain ⟨p, hL, hs⟩ := mod_sampling.sample_eq_least_mod H w k t seed window (by omega) ht
    ⟨0, by omega, hb _ _ _ _⟩
  obtain ⟨hpn, x, hx, hmin, hleft⟩ := hL
  simp only [Option.some.injEq] at hx
  subst hx
  refine ⟨p, hpn, ?_, ?_, hs⟩
  · intro j hj
    exact hmin j hj _ rfl
  · intro j hj
    exact hleft j hj _ rfl

/-- Witness for C4: the concrete scenario of the spec, w = 4, k = 5, t = 2,
seed 0, window AACGTACG. -/
theorem C4_witness :
    2 ≤ 4 ∧ 2 ≤ 5 ∧ HBounded Hbyte ∧
    ∃ p, p < 4 + 5 - 2 ∧
      (∀ j, j < 4 + 5 - 2 →
        mod_sampling.tmerKey Hbyte 4 2 0 [65, 65, 67, 71, 84, 65, 67, 71] p ≤
        mod_sampling.tmerKey Hbyte 4 2 0 [65, 65, 67, 71, 84, 65, 67, 71] j) ∧
      (∀ j, j < p →
        mod_sampling.tmerKey Hbyte 4 2 0 [65, 65, 67, 71, 84, 65, 67, 71] p <
        mod_sampling.tmerKey Hbyte 4 2 0 [65, 65, 67, 71, 84, 65, 67, 71] j) ∧
      mod_sampling.sample Hbyte 4 5 2 0 [65, 65, 67, 71, 84, 65, 67, 71] =
        some (p % 4) :=
  ⟨by decide, by decide, Hbyte_bounded,
    C4_mod_sampling_batch Hbyte 4 5 2 0 [65, 65, 67, 71, 84, 65, 67, 71]
      (by decide) (by decide) Hbyte_bounded⟩

theorem tie_break_core {α : Type} [LinearOrder α] (key : ℕ → Option α)
    (n p i : ℕ) (hL : IsLeastO key n p) (hi : i < n) (x : α) (hx : key i = some x)
    (hmin : ∀ l, l < n → ∀ y, key l = some y → x ≤ y) :
    p ≤ i ∧ key p = some x ∧ ∀ q, q < p → key q ≠ some x := by
  obtain ⟨hpn, z, hz, hzmin, hzleft⟩ := hL
  have hzx : z = x := le_antisymm (hzmin i hi x hx) (hmin p hpn z hz)
  subst hzx
  have hple : p ≤ i := by
    by_contra hpi
    push_neg at hpi
    exact lt_irrefl z (hzleft i hpi z hx)
  refine ⟨hple, hz, ?_⟩
  intro q hq hqx
  exact lt_irrefl z (hzleft q hq z hqx)

/-- C3: for every policy, a window containing two candidates with equal
minimal keys makes the batch sample return the leftmost offset whose key
equals that minimal key (each policy under the side conditions that let its
scan select at all: a Hasher below the sentinel for the plain-hash policies,
DNA symbols for rotational_alt, w dividing k for rotational_orig). -/
theorem C3_leftmost_tie_break (H : HasherFn) (w k t seed : ℕ) (window : List ℕ)
    (g : List ℂ) (hw : 2 ≤ w) :
    (∀ i j, i < j → j < w + k - t → t ≤ k → HBounded H →
      mod_sampling.tmerKey H w t seed window i =
        mod_sampling.tmerKey H w t seed window j →
      (∀ l, l < w + k - t → mod_sampling.tmerKey H w t seed window i ≤
        mod_sampling.tmerKey H w t seed window l) →
      ∃ p, p ≤ i ∧
        mod_sampling.tmerKey H w t seed window p =
          mod_sampling.tmerKey H w t seed window i ∧
        (∀ q, q < p → mod_sampling.tmerKey H w t seed window q ≠
          mod_sampling.tmerKey H w t seed window i) ∧
        mod_sampling.sample H w k t seed window = some (p % w)) ∧
    (∀ i j, i < j → j < w → t ≤ k → HBounded H →
      miniception.charged H w k t seed window i →
      miniception.charged H w k t seed window j →
      miniception.kKey H w k seed window i = miniception.kKey H w k seed window j →
      (∀ l, l < w → miniception.charged H w k t seed window l →
        miniception.kKey H w k seed window i ≤ miniception.kKey H w k seed window l) →
      ∃ p, p ≤ i ∧ miniception.charged H w k t seed window p ∧
        miniception.kKey H w k seed window p = miniception.kKey H w k seed window i ∧
        miniception.sample H w k t seed window = some p) ∧
    (∀ i j, i < j → j < w → 1 ≤ k → window.length = w + k - 1 →
      (∀ c ∈ window, isDNA c) →
      rotational_alt.kmerKey H w k seed window i =
        rotational_alt.kmerKey H w k seed window j →
      (∀ l, l < w → rotational_alt.kmerKey H w k seed window i ≤
        rotational_alt.kmerKey H w k seed window l) →
      ∃ p, p ≤ i ∧
        rotational_alt.kmerKey H w k seed window p =
          rotational_alt.kmerKey H w k seed window i ∧
        (∀ q, q < p → rotational_alt.kmerKey H w k seed window q ≠
          rotational_alt.kmerKey H w k seed window i) ∧
        rotational_alt.sample H w k seed window = some p) ∧
    (∀ i j, i < j → j < w → w ∣ k →
      rotational_orig.kmerKey H w k seed window i =
        rotational_orig.kmerKey H w k seed window j →
      (∀ l, l < w → rotational_orig.kmerKey H w k seed window i ≤
        rotational_orig.kmerKey H w k seed window l) →
      ∃ p, p ≤ i ∧
        rotational_orig.kmerKey H w k seed window p =
          rotational_orig.kmerKey H w k seed window i ∧
        (∀ q, q < p → rotational_orig.kmerKey H w k seed window q ≠
          rotational_orig.kmerKey H w k seed window i) ∧
        rotational_orig.sample H w k seed window = some p) ∧
    (∀ i j, i < j → j < w →
      decycling.kmerKey H w k seed g window i = decycling.kmerKey H w k seed g window j →
      (∀ l, l < w → decycling.kmerKey H w k seed g window i ≤
        decycling.kmerKey H w k seed g window l) →
      ∃ p, p ≤ i ∧
        decycling.kmerKey H w k seed g window p = decycling.kmerKey H w k seed g window i ∧
        (∀ q, q < p → decycling.kmerKey H w k seed g window q ≠
          decycling.kmerKey H w k seed g window i) ∧
        decycling.sample H w k seed g window = some p) ∧
    (∀ i j, i < j → j < w →
      double_decycling.kmerKey H w k seed g window i =
        double_decycling.kmerKey H w k seed g window j →
      (∀ l, l < w → double_decycling.kmerKey H w k seed g window i ≤
        double_decycling.kmerKey H w k seed g window l) →
      ∃ p, p ≤ i ∧
        double_decycling.kmerKey H w k seed g window p =
          double_decycling.kmerKey H w k seed g window i ∧
        (∀ q, q < p → double_decycling.kmerKey H w k seed g window q ≠
          double_decycling.kmerKey H w k seed g window i) ∧
        double_decycling.sample H w k seed g window = some p) := by
  refine ⟨?_, ?_, ?_, ?_, ?_, ?_⟩
  · intro i j hij hj ht hb heq hminl
    obtain ⟨p, hL, hs⟩ := mod_sampling.sample_eq_least_mod H w k t seed window (by omega) ht
      ⟨0, by omega, hb _ _ _ _⟩
    obtain ⟨hp1, hp2, hp3⟩ := tie_break_core _ (w + k - t) p i hL (by omega)
      (mod_sampling.tmerKey H w t seed window i) rfl
      (fun l hl y hy => by
        simp only [Option.some.injEq] at hy
        rw [← hy]
        exact hminl l hl)
    simp only [Option.some.injEq] at hp2
    refine ⟨p, hp1, hp2, ?_, hs⟩
    intro q hq hqe
    exact hp3 q hq (by rw [hqe])
  · intro i j hij hj ht hb hci hcj heq hminl
    have hmi : miniception.mKey H w k t seed window i =
        some (miniception.kKey H w k seed window i) := by
      unfold miniception.mKey
      rw [if_pos hci]
    obtain ⟨p, hL, hs⟩ := miniception.sample_eq_least_minic H w k t seed window (by omega)
      ⟨i, by omega, _, hmi, hb _ _ _ _⟩
    obtain ⟨hp1, hp2, hp3⟩ := tie_break_core _ w p i hL (by omega)
      (miniception.kKey H w k seed window i) hmi
      (fun l hl y hy => by
        unfold miniception.mKey at hy
        by_cases hcl : miniception.charged H w k t seed window l
        · rw [if_pos hcl] at hy
          simp only [Option.some.injEq] at hy
          rw [← hy]
          exact hminl l hl hcl
        · rw [if_neg hcl] at hy
          exact absurd hy (by simp))
    have hcp : miniception.charged H w k t seed window p := by
      unfold miniception.mKey at hp2
      by_cases hcl : miniception.charged H w k t seed window p
      · exact hcl
      · rw [if_neg hcl] at hp2
        exact absurd hp2 (by simp)
    have hkp : miniception.kKey H w k seed window p =
        miniception.kKey H w k seed window i := by
      unfold miniception.mKey at hp2
      rw [if_pos hcp] at hp2
      simpa using hp2
    exact ⟨p, hp1, hcp, hkp, hs⟩
  · intro i j hij hj hk hlen hdna heq hminl
    have hchar : 65 ≤ window.getD i 0 := by
      have hidx : i < window.length := by omega
      have hmem : window.getD i 0 ∈ window := by
        rw [List.getD_eq_getElem?_getD, List.getElem?_eq_getElem hidx]
        exact List.getElem_mem _
      exact (isDNA_bounds _ (hdna _ hmem)).1
    obtain ⟨p, hL, hs⟩ := rotational_alt.sample_eq_least_alt H w k seed window
      ⟨i, by omega, rotational_alt.key_lt_sentinel_alt H w k seed window i hk (by omega) hchar⟩
    obtain ⟨hp1, hp2, hp3⟩ := tie_break_core _ w p i hL (by omega)
      (rotational_alt.kmerKey H w k seed window i) rfl
      (fun l hl y hy => by
        simp only [Option.some.injEq] at hy
        rw [← hy]
        exact hminl l hl)
    simp only [Option.some.injEq] at hp2
    refine ⟨p, hp1, hp2, ?_, hs⟩
    intro q hq hqe
    exact hp3 q hq (by rw [hqe])
  · intro i j hij hj hdvd heq hminl
    obtain ⟨p, hL, hs⟩ := rotational_orig.sample_eq_least_orig H w k seed window (by omega)
      (uhs_exists window w k (by omega) hdvd)
    obtain ⟨hp1, hp2, hp3⟩ := tie_break_core _ w p i hL (by omega)
      (rotational_orig.kmerKey H w k seed window i) rfl
      (fun l hl y hy => by
        simp only [Option.some.injEq] at hy
        rw [← hy]
        exact hminl l hl)
    simp only [Option.some.injEq] at hp2
    refine ⟨p, hp1, hp2, ?_, hs⟩
    intro q hq hqe
    exact hp3 q hq (by rw [hqe])
  · intro i j hij hj heq hminl
    obtain ⟨p, hL, hs⟩ := decycling.sample_eq_least_dec H w k seed g window (by omega)
    obtain ⟨hp1, hp2, hp3⟩ := tie_break_core _ w p i hL (by omega)
      (decycling.kmerKey H w k seed g window i) rfl
      (fun l hl y hy => by
        simp only [Option.some.injEq] at hy
        rw [← hy]
        exact hminl l hl)
    simp only [Option.some.injEq] at hp2
    refine ⟨p, hp1, hp2, ?_, hs⟩
    intro q hq hqe
    exact hp3 q hq (by rw [hqe])
  · intro i j hij hj heq hminl
    obtain ⟨p, hL, hs⟩ := double_decycling.sample_eq_least_ddec H w k seed g window (by omega)
    obtain ⟨hp1, hp2, hp3⟩ := tie_break_core _ w p i hL (by omega)
      (double_decycling.kmerKey H w k seed g window i) rfl
      (fun l hl y hy => by
        simp only [Option.some.injEq] at hy
        rw [← hy]
        exact hminl l hl)
    simp only [Option.some.injEq] at hp2
    refine ⟨p, hp1, hp2, ?_, hs⟩
    intro q hq hqe
    exact hp3 q hq (by rw [hqe])

/-- Witness for C3 at w = 2, k = 2, t = 1, window AAA (all candidate keys are
equal, so every candidate is minimal and tied), with the empty global roots
vector for the decycling policies. -/
theorem C3_witness :
    (2 ≤ 2 ∧ 1 ≤ 2 ∧ HBounded Hbyte ∧ ([65, 65, 65] : List ℕ).length = 2 + 2 - 1 ∧
      (∀ c ∈ ([65, 65, 65] : List ℕ), isDNA c) ∧ (2 : ℕ) ∣ 2 ∧
      miniception.charged Hbyte 2 2 1 0 [65, 65, 65] 0 ∧
      miniception.charged Hbyte 2 2 1 0 [65, 65, 65] 1) ∧
    (∃ p, p ≤ 0 ∧
      mod_sampling.tmerKey Hbyte 2 1 0 [65, 65, 65] p =
        mod_sampling.tmerKey Hbyte 2 1 0 [65, 65, 65] 0 ∧
      (∀ q, q < p → mod_sampling.tmerKey Hbyte 2 1 0 [65, 65, 65] q ≠
        mod_sampling.tmerKey Hbyte 2 1 0 [65, 65, 65] 0) ∧
      mod_sampling.sample Hbyte 2 2 1 0 [65, 65, 65] = some (p % 2)) ∧
    (∃ p, p ≤ 0 ∧ miniception.charged Hbyte 2 2 1 0 [65, 65, 65] p ∧
      miniception.kKey Hbyte 2 2 0 [65, 65, 65] p =
        miniception.kKey Hbyte 2 2 0 [65, 65, 65] 0 ∧
      miniception.sample Hbyte 2 2 1 0 [65, 65, 65] = some p) ∧
    (∃ p, p ≤ 0 ∧
      rotational_alt.kmerKey Hbyte 2 2 0 [65, 65, 65] p =
        rotational_alt.kmerKey Hbyte 2 2 0 [65, 65, 65] 0 ∧
      (∀ q, q < p → rotational_alt.kmerKey Hbyte 2 2 0 [65, 65, 65] q ≠
        rotational_alt.kmerKey Hbyte 2 2 0 [65, 65, 65] 0) ∧
      rotational_alt.sample Hbyte 2 2 0 [65, 65, 65] = some p) ∧
    (∃ p, p ≤ 0 ∧
      rotational_orig.kmerKey Hbyte 2 2 0 [65, 65, 65] p =
        rotational_orig.kmerKey Hbyte 2 2 0 [65, 65, 65] 0 ∧
      (∀ q, q < p → rotational_orig.kmerKey Hbyte 2 2 0 [65, 65, 65] q ≠
        rotational_orig.kmerKey Hbyte 2 2 0 [65, 65, 65] 0) ∧
      rotational_orig.sample Hbyte 2 2 0 [65, 65, 65] = some p) ∧
    (∃ p, p ≤ 0 ∧
      decycling.kmerKey Hbyte 2 2 0 [] [65, 65, 65] p =
        decycling.kmerKey Hbyte 2 2 0 [] [65, 65, 65] 0 ∧
      (∀ q, q < p → decycling.kmerKey Hbyte 2 2 0 [] [65, 65, 65] q ≠
        decycling.kmerKey Hbyte 2 2 0 [] [65, 65, 65] 0) ∧
      decycling.sample Hbyte 2 2 0 [] [65, 65, 65] = some p) ∧
    (∃ p, p ≤ 0 ∧
      double_decycling.kmerKey Hbyte 2 2 0 [] [65, 65, 65] p =
        double_decycling.kmerKey Hbyte 2 2 0 [] [65, 65, 65] 0 ∧
      (∀ q, q < p → double_decycling.kmerKey Hbyte 2 2 0 [] [65, 65, 65] q ≠
        double_decycling.kmerKey Hbyte 2 2 0 [] [65, 65, 65] 0) ∧
      double_decycling.sample Hbyte 2 2 0 [] [65, 65, 65] = some p) := by
  obtain ⟨c1, c2, c3, c4, c5, c6⟩ :=
    C3_leftmost_tie_break Hbyte 2 2 1 0 [65, 65, 65] [] (by decide)
  refine ⟨⟨by decide, by decide, Hbyte_bounded, by decide, by decide, by decide,
    by decide, by decide⟩, ?_, ?_, ?_, ?_, ?_, ?_⟩
  · exact c1 0 1 (by decide) (by decide) (by decide) Hbyte_bounded rfl
      (fun l hl => by
        rcases (by omega : l = 0 ∨ l = 1 ∨ l = 2) with rfl | rfl | rfl <;> exact le_refl _)
  · exact c2 0 1 (by decide) (by decide) (by decide) Hbyte_bounded (by decide) (by decide)
      rfl (fun l hl _ => by
        rcases (by omega : l = 0 ∨ l = 1) with rfl | rfl <;> exact le_refl _)
  · exact c3 0 1 (by decide) (by decide) (by decide) (by decide) (by decide) rfl
      (fun l hl => by
        rcases (by omega : l = 0 ∨ l = 1) with rfl | rfl <;> exact le_refl _)
  · exact c4 0 1 (by decide) (by decide) (by decide) rfl
      (fun l hl => by
        rcases (by omega : l = 0 ∨ l = 1) with rfl | rfl <;> exact le_refl _)
  · exact c5 0 1 (by decide) (by decide) rfl
      (fun l hl => by
        rcases (by omega : l = 0 ∨ l = 1) with rfl | rfl <;> exact le_refl _)
  · exact c6 0 1 (by decide) (by decide) rfl
      (fun l hl => by
        rcases (by omega : l = 0 ∨ l = 1) with rfl | rfl <;> exact le_refl _)

namespace miniception

/-- Theorem validating the miniception invariant: when the inner window fits,
that is k - t does not exceed w, every window contains a charged kmer (the
kmer that has the leftmost globally minimal tmer at its first or last
position). -/
theorem charged_exists (H : HasherFn) (w k t seed : ℕ) (window : List ℕ)
    (hw : 1 ≤ w) (hkw : k - t ≤ w) :
    ∃ i, i < w ∧ charged H w k t seed window i := by
  have hex : ∃ q, q < w + (k - t) ∧
      ∃ x, (fun q => some (tKey H w t seed window q)) q = some x :=
    ⟨0, by omega, tKey H w t seed window 0, rfl⟩
  have hq := queryBuf_canon (fun q => some (tKey H w t seed window q)) (w + (k - t)) hex
  obtain ⟨hQn, x, hxQ, hmin, hleft⟩ := hq
  simp only [Option.some.injEq] at hxQ
  by_cases hQw : queryBuf ((List.range (w + (k - t))).map
      (fun q => some (tKey H w t seed window q))) < w
  · refine ⟨_, hQw, ?_⟩
    have h0 : IsLeastO (fun j => some (tKey H w t seed window
        (queryBuf ((List.range (w + (k - t))).map
          (fun q => some (tKey H w t seed window q))) + j))) (k - t + 1) 0 := by
      refine ⟨by omega, x, by simp only [Nat.add_zero, hxQ], ?_, ?_⟩
      · intro j hj y hy
        simp only [Option.some.injEq] at hy
        rw [← hy]
        exact hmin _ (by omega) _ rfl
      · intro j hj y hy
        omega
    have hqb := queryBuf_canon (fun j => some (tKey H w t seed window
        (queryBuf ((List.range (w + (k - t))).map
          (fun q => some (tKey H w t seed window q))) + j))) (k - t + 1)
      ⟨0, by omega, _, rfl⟩
    exact Or.inl (IsLeastO_unique hqb h0)
  · push_neg at hQw
    refine ⟨queryBuf ((List.range (w + (k - t))).map
      (fun q => some (tKey H w t seed window q))) - (k - t), by omega, ?_⟩
    have hQeq : queryBuf ((List.range (w + (k - t))).map
        (fun q => some (tKey H w t seed window q))) - (k - t) + (k - t) =
        queryBuf ((List.range (w + (k - t))).map
          (fun q => some (tKey H w t seed window q))) := by omega
    have h0 : IsLeastO (fun j => some (tKey H w t seed window
        (queryBuf ((List.range (w + (k - t))).map
          (fun q => some (tKey H w t seed window q))) - (k - t) + j)))
        (k - t + 1) (k - t) := by
      refine ⟨by omega, x, by simp only [hQeq, hxQ], ?_, ?_⟩
      · intro j hj y hy
        simp only [Option.some.injEq] at hy
        rw [← hy]
        exact hmin _ (by omega) _ rfl
      · intro j hj y hy
        simp only [Option.some.injEq] at hy
        rw [← hy]
        exact hleft _ (by omega) _ rfl
    have hqb := queryBuf_canon (fun j => some (tKey H w t seed window
        (queryBuf ((List.range (w + (k - t))).map
          (fun q => some (tKey H w t seed window q))) - (k - t) + j))) (k - t + 1)
      ⟨0, by omega, _, rfl⟩
    exact Or.inr (IsLeastO_unique hqb h0)


end miniception

theorem lt_of_map_some_eq (w : ℕ) (f : ℕ → Option ℕ) (n : ℕ) (l : List ℕ)
    (heq : (List.range n).map f = l.map some)
    (hall : ∀ i, i < n → ∃ o, f i = some o ∧ o < w) :
    ∀ o, o ∈ l → o < w := by
  intro o ho
  have h1 : some o ∈ l.map some := List.mem_map_of_mem some ho
  rw [← heq] at h1
  obtain ⟨i, hi, hfi⟩ := List.mem_map.mp h1
  obtain ⟨p, hp, hpw⟩ := hall i (List.mem_range.mp hi)
  rw [hp] at hfi
  simp only [Option.some.injEq] at hfi
  rw [← hfi]
  exact hpw

theorem opt_lt_of_map_eq (w : ℕ) (f : ℕ → Option ℕ) (n : ℕ) (l : List (Option ℕ))
    (heq : (List.range n).map f = l)
    (hall : ∀ i, i < n → ∃ o, f i = some o ∧ o < w) :
    ∀ x, x ∈ l → ∃ o, x = some o ∧ o < w := by
  intro x hx
  rw [← heq] at hx
  obtain ⟨i, hi, hfi⟩ := List.mem_map.mp hx
  obtain ⟨p, hp, hpw⟩ := hall i (List.mem_range.mp hi)
  exact ⟨p, by rw [← hfi, hp], hpw⟩

/-- C2 counterexample: miniception with the well-formed parameters w = 2,
k = 4, t = 1 (w at least 2, t at most k, no divisibility constraint) on the
DNA window CCACC contains no charged kmer: the batch sample runs into
assert(p < m_w) with p = uint64_t(-1), modelled as none, so no offset in
[0, w) is returned. -/
theorem C2_counterexample :
    2 ≤ 2 ∧ 1 ≤ 4 ∧ ([67, 67, 65, 67, 67] : List ℕ).length = 2 + 4 - 1 ∧
    (∀ c ∈ ([67, 67, 65, 67, 67] : List ℕ), isDNA c) ∧ HBounded Hbyte ∧
    miniception.sample Hbyte 2 4 1 0 [67, 67, 65, 67, 67] = none ∧
    ¬ ∃ o, miniception.sample Hbyte 2 4 1 0 [67, 67, 65, 67, 67] = some o ∧ o < 2 := by
  refine ⟨by decide, by decide, by decide, by decide, Hbyte_bounded, by decide, ?_⟩
  intro ⟨o, ho, _⟩
  rw [show miniception.sample Hbyte 2 4 1 0 [67, 67, 65, 67, 67] = none by decide] at ho
  exact Option.noConfusion ho

/-- C2 as amended: over a sequence with n windows, every offset the batch
sample returns on any window and every offset any streaming call returns
(the resetting first call and every continuation call alike) lies in [0, w),
for every policy, provided additionally that the Hasher stays below the scan
sentinel where the plain hash is the whole key, that k - t does not exceed w
for miniception (otherwise a window need not contain a charged kmer, as the
counterexample shows), that k is positive and the sequence is DNA covering
all windows for rotational_alt, and that w divides k for rotational_orig. -/
theorem C2_offset_range (H : HasherFn) (w k t seed : ℕ) (s : List ℕ) (n : ℕ)
    (hw : 2 ≤ w) (hn : 1 ≤ n) :
    (t ≤ k → HBounded H →
      (∀ i, i < n → ∃ o,
        mod_sampling.sample H w k t seed (sub s i (w + k - 1)) = some o ∧ o < w) ∧
      (∀ o ∈ (streamRun (mod_sampling.sampleStream H w k t seed) [] s
        (w + k - 1) n).2, o < w)) ∧
    (t ≤ k → k - t ≤ w → w ≤ U64MAX → HBounded H →
      (∀ i, i < n → ∃ o,
        miniception.sample H w k t seed (sub s i (w + k - 1)) = some o ∧ o < w) ∧
      (∀ x ∈ (streamRun (miniception.sampleStream H w k t seed)
          (([], []) : miniception.StreamState) s (w + k - 1) n).2,
        ∃ o, x = some o ∧ o < w)) ∧
    (1 ≤ k → (∀ c ∈ s, isDNA c) → (w + k - 1) + (n - 1) ≤ s.length →
      (∀ i, i < n → ∃ o,
        rotational_alt.sample H w k seed (sub s i (w + k - 1)) = some o ∧ o < w) ∧
      (∀ o ∈ (streamRun (rotational_alt.sampleStream H w k seed) [] s
        (w + k - 1) n).2, o < w)) ∧
    (w ∣ k →
      (∀ i, i < n → ∃ o,
        rotational_orig.sample H w k seed (sub s i (w + k - 1)) = some o ∧ o < w) ∧
      (∀ o ∈ (streamRun (rotational_orig.sampleStream H w k seed) [] s
        (w + k - 1) n).2, o < w)) ∧
    (∀ g, (∀ i, i < n → ∃ o,
        decycling.sample H w k seed g (sub s i (w + k - 1)) = some o ∧ o < w) ∧
      (∀ o ∈ (streamRun (decycling.sampleStream H w k seed g) [] s
        (w + k - 1) n).2, o < w)) ∧
    (∀ g, (∀ i, i < n → ∃ o,
        double_decycling.sample H w k seed g (sub s i (w + k - 1)) = some o ∧ o < w) ∧
      (∀ o ∈ (streamRun (double_decycling.sampleStream H w k seed g) [] s
        (w + k - 1) n).2, o < w)) := by
  refine ⟨?_, ?_, ?_, ?_, ?_, ?_⟩
  · intro ht hb
    have hbatch : ∀ i, i < n → ∃ o,
        mod_sampling.sample H w k t seed (sub s i (w + k - 1)) = some o ∧ o < w := by
      intro i hi
      obtain ⟨p, hL, hs⟩ := mod_sampling.sample_eq_least_mod H w k t seed
        (sub s i (w + k - 1)) (by omega) ht ⟨0, by omega, hb _ _ _ _⟩
      exact ⟨p % w, hs, Nat.mod_lt _ (by omega)⟩
    exact ⟨hbatch, lt_of_map_some_eq w
      (fun i => mod_sampling.sample H w k t seed (sub s i (w + k - 1))) n _
      (mod_sampling.equiv_lemma_mod H w k t seed s n hw ht hb hn) hbatch⟩
  · intro ht hkw hwU hb
    have hbatch : ∀ i, i < n → ∃ o,
        miniception.sample H w k t seed (sub s i (w + k - 1)) = some o ∧ o < w := by
      intro i hi
      obtain ⟨j, hj, hch⟩ := miniception.charged_exists H w k t seed
        (sub s i (w + k - 1)) (by omega) hkw
      have hmi : miniception.mKey H w k t seed (sub s i (w + k - 1)) j =
          some (miniception.kKey H w k seed (sub s i (w + k - 1)) j) := by
        unfold miniception.mKey
        rw [if_pos hch]
      obtain ⟨p, hL, hs⟩ := miniception.sample_eq_least_minic H w k t seed
        (sub s i (w + k - 1)) (by omega) ⟨j, hj, _, hmi, hb _ _ _ _⟩
      exact ⟨p, hs, hL.1⟩
    exact ⟨hbatch, opt_lt_of_map_eq w
      (fun i => miniception.sample H w k t seed (sub s i (w + k - 1))) n _
      (miniception.equiv_lemma_minic H w k t seed s n hw ht hwU hb hn) hbatch⟩
  · intro hk hdna hlen
    have hbatch : ∀ i, i < n → ∃ o,
        rotational_alt.sample H w k seed (sub s i (w + k - 1)) = some o ∧ o < w := by
      intro i hi
      have hidx : i < s.length := by omega
      have hmem : s.getD i 0 ∈ s := by
        rw [List.getD_eq_getElem?_getD, List.getElem?_eq_getElem hidx]
        exact List.getElem_mem _
      have hchar : 65 ≤ (sub s i (w + k - 1)).getD 0 0 := by
        rw [getD_sub s i (w + k - 1) 0 (by omega), Nat.add_zero]
        exact (isDNA_bounds _ (hdna _ hmem)).1
      obtain ⟨p, hL, hs⟩ := rotational_alt.sample_eq_least_alt H w k seed
        (sub s i (w + k - 1)) ⟨0, by omega, rotational_alt.key_lt_sentinel_alt
          H w k seed (sub s i (w + k - 1)) 0 hk (by omega) hchar⟩
      exact ⟨p, hs, hL.1⟩
    exact ⟨hbatch, lt_of_map_some_eq w
      (fun i => rotational_alt.sample H w k seed (sub s i (w + k - 1))) n _
      (rotational_alt.equiv_lemma_alt H w k seed s n hw hk hn hdna hlen) hbatch⟩
  · intro hdvd
    have hbatch : ∀ i, i < n → ∃ o,
        rotational_orig.sample H w k seed (sub s i (w + k - 1)) = some o ∧ o < w := by
      intro i hi
      obtain ⟨p, hL, hs⟩ := rotational_orig.sample_eq_least_orig H w k seed
        (sub s i (w + k - 1)) (by omega)
        (uhs_exists (sub s i (w + k - 1)) w k (by omega) hdvd)
      exact ⟨p, hs, hL.1⟩
    exact ⟨hbatch, lt_of_map_some_eq w
      (fun i => rotational_orig.sample H w k seed (sub s i (w + k - 1))) n _
      (rotational_orig.equiv_lemma_orig H w k seed s n hw hdvd hn) hbatch⟩
  · intro g
    have hbatch : ∀ i, i < n → ∃ o,
        decycling.sample H w k seed g (sub s i (w + k - 1)) = some o ∧ o < w := by
      intro i hi
      obtain ⟨p, hL, hs⟩ := decycling.sample_eq_least_dec H w k seed g
        (sub s i (w + k - 1)) (by omega)
      exact ⟨p, hs, hL.1⟩
    exact ⟨hbatch, lt_of_map_some_eq w
      (fun i => decycling.sample H w k seed g (sub s i (w + k - 1))) n _
      (decycling.equiv_lemma_dec H w k seed g s n hw hn) hbatch⟩
  · intro g
    have hbatch : ∀ i, i < n → ∃ o,
        double_decycling.sample H w k seed g (sub s i (w + k - 1)) = some o ∧ o < w := by
      intro i hi
      obtain ⟨p, hL, hs⟩ := double_decycling.sample_eq_least_ddec H w k seed g
        (sub s i (w + k - 1)) (by omega)
      exact ⟨p, hs, hL.1⟩
    exact ⟨hbatch, lt_of_map_some_eq w
      (fun i => double_decycling.sample H w k seed g (sub s i (w + k - 1))) n _
      (double_decycling.equiv_lemma_ddec H w k seed g s n hw hn) hbatch⟩

/-- Witness for C2 at w = 2, k = 2, t = 1 over the DNA sequence ACGT with
two windows (so a continuation streaming call is exercised) and the empty
global roots vector. -/
theorem C2_witness :
    (2 ≤ 2 ∧ 1 ≤ 2 ∧ 1 ≤ (2 : ℕ) ∧ 2 - 1 ≤ 2 ∧ 2 ≤ U64MAX ∧ HBounded Hbyte ∧
      (∀ c ∈ ([65, 67, 71, 84] : List ℕ), isDNA c) ∧
      (2 + 2 - 1) + (2 - 1) ≤ ([65, 67, 71, 84] : List ℕ).length ∧ (2 : ℕ) ∣ 2) ∧
    ((∀ i, i < 2 → ∃ o,
        mod_sampling.sample Hbyte 2 2 1 0 (sub [65, 67, 71, 84] i (2 + 2 - 1)) =
          some o ∧ o < 2) ∧
      (∀ o ∈ (streamRun (mod_sampling.sampleStream Hbyte 2 2 1 0) [] [65, 67, 71, 84]
        (2 + 2 - 1) 2).2, o < 2)) ∧
    ((∀ i, i < 2 → ∃ o,
        miniception.sample Hbyte 2 2 1 0 (sub [65, 67, 71, 84] i (2 + 2 - 1)) =
          some o ∧ o < 2) ∧
      (∀ x ∈ (streamRun (miniception.sampleStream Hbyte 2 2 1 0)
          (([], []) : miniception.StreamState) [65, 67, 71, 84] (2 + 2 - 1) 2).2,
        ∃ o, x = some o ∧ o < 2)) ∧
    ((∀ i, i < 2 → ∃ o,
        rotational_alt.sample Hbyte 2 2 0 (sub [65, 67, 71, 84] i (2 + 2 - 1)) =
          some o ∧ o < 2) ∧
      (∀ o ∈ (streamRun (rotational_alt.sampleStream Hbyte 2 2 0) [] [65, 67, 71, 84]
        (2 + 2 - 1) 2).2, o < 2)) ∧
    ((∀ i, i < 2 → ∃ o,
        rotational_orig.sample Hbyte 2 2 0 (sub [65, 67, 71, 84] i (2 + 2 - 1)) =
          some o ∧ o < 2) ∧
      (∀ o ∈ (streamRun (rotational_orig.sampleStream Hbyte 2 2 0) [] [65, 67, 71, 84]
        (2 + 2 - 1) 2).2, o < 2)) ∧
    ((∀ i, i < 2 → ∃ o,
        decycling.sample Hbyte 2 2 0 [] (sub [65, 67, 71, 84] i (2 + 2 - 1)) =
          some o ∧ o < 2) ∧
      (∀ o ∈ (streamRun (decycling.sampleStream Hbyte 2 2 0 []) [] [65, 67, 71, 84]
        (2 + 2 - 1) 2).2, o < 2)) ∧
    ((∀ i, i < 2 → ∃ o,
        double_decycling.sample Hbyte 2 2 0 [] (sub [65, 67, 71, 84] i (2 + 2 - 1)) =
          some o ∧ o < 2) ∧
      (∀ o ∈ (streamRun (double_decycling.sampleStream Hbyte 2 2 0 []) []
        [65, 67, 71, 84] (2 + 2 - 1) 2).2, o < 2)) := by
  obtain ⟨c1, c2, c3, c4, c5, c6⟩ := C2_offset_range Hbyte 2 2 1 0 [65, 67, 71, 84] 2
    (by decide) (by decide)
  exact ⟨⟨by decide, by decide, by decide, by decide, by decide, Hbyte_bounded,
      by decide, by decide, by decide⟩,
    c1 (by decide) Hbyte_bounded, c2 (by decide) (by decide) (by decide) Hbyte_bounded,
    c3 (by decide) (by decide) (by decide), c4 (by decide), c5 [], c6 []⟩

/-- C5: miniception charging.  A kmer at offset i is charged iff the
leftmost minimal-key tmer among its k - t + 1 tmers sits at position 0 or
k - t of the kmer; only charged kmers enter the outer scan (uncharged ones
contribute none); when some charged kmer with key below the sentinel exists,
the batch sample returns the leftmost charged kmer of minimal key; and the
first streaming call applies the same charging, returning exactly the batch
answer. -/
theorem C5_miniception_charging (H : HasherFn) (w k t seed : ℕ)
    (window : List ℕ) (hw : 2 ≤ w) (hwU : w ≤ U64MAX) (hb : HBounded H) :
    (∀ i, miniception.charged H w k t seed window i ↔
      ∃ p, (p = 0 ∨ p = k - t) ∧
        IsLeastO (fun j => some (miniception.tKey H w t seed window (i + j)))
          (k - t + 1) p) ∧
    (∀ i, miniception.mKey H w k t seed window i =
      (if miniception.charged H w k t seed window i
       then some (miniception.kKey H w k seed window i) else none)) ∧
    ((∃ i, i < w ∧ miniception.charged H w k t seed window i) →
      ∃ p, miniception.sample H w k t seed window = some p ∧ p < w ∧
        miniception.charged H w k t seed window p ∧
        (∀ j, j < w → miniception.charged H w k t seed window j →
          miniception.kKey H w k seed window p ≤ miniception.kKey H w k seed window j) ∧
        (∀ j, j < p → miniception.charged H w k t seed window j →
          miniception.kKey H w k seed window p < miniception.kKey H w k seed window j)) ∧
    (miniception.sampleStream H w k t seed ([], []) window true).2 =
      miniception.sample H w k t seed window := by
  refine ⟨?_, fun i => rfl, ?_, ?_⟩
  · intro i
    constructor
    · intro hch
      exact ⟨queryBuf (miniception.ibufCanon H w t seed window (k - t) i), hch,
        queryBuf_canon (fun j => some (miniception.tKey H w t seed window (i + j)))
          (k - t + 1) ⟨0, by omega, _, rfl⟩⟩
    · rintro ⟨p, hp, hL⟩
      have hq := queryBuf_canon
        (fun j => some (miniception.tKey H w t seed window (i + j))) (k - t + 1)
        ⟨0, by omega, _, rfl⟩
      have he : queryBuf (miniception.ibufCanon H w t seed window (k - t) i) = p :=
        IsLeastO_unique hq hL
      unfold miniception.charged
      rcases hp with rfl | rfl
      · exact Or.inl he
      · exact Or.inr he
  · rintro ⟨i, hi, hch⟩
    have hmi : miniception.mKey H w k t seed window i =
        some (miniception.kKey H w k seed window i) := by
      unfold miniception.mKey
      rw [if_pos hch]
    obtain ⟨p, hL, hs⟩ := miniception.sample_eq_least_minic H w k t seed window (by omega)
      ⟨i, hi, _, hmi, hb _ _ _ _⟩
    obtain ⟨hpw, x, hx, hmin, hleft⟩ := hL
    have hchp : miniception.charged H w k t seed window p := by
      by_contra hc
      unfold miniception.mKey at hx
      rw [if_neg hc] at hx
      exact Option.noConfusion hx
    have hxval : x = miniception.kKey H w k seed window p := by
      unfold miniception.mKey at hx
      rw [if_pos hchp] at hx
      simp only [Option.some.injEq] at hx
      exact hx.symm
    refine ⟨p, hs, hpw, hchp, ?_, ?_⟩
    · intro j hj hchj
      have hmj : miniception.mKey H w k t seed window j =
          some (miniception.kKey H w k seed window j) := by
        unfold miniception.mKey
        rw [if_pos hchj]
      exact hxval ▸ hmin j hj _ hmj
    · intro j hj hchj
      have hmj : miniception.mKey H w k t seed window j =
          some (miniception.kKey H w k seed window j) := by
        unfold miniception.mKey
        rw [if_pos hchj]
      exact hxval ▸ hleft j hj _ hmj
  · have hst : (miniception.sampleStream H w k t seed ([], []) window true).2 =
        (if queryBuf ((List.range w).map
            (fun i => miniception.mKey H w k t seed window i)) < w
         then some (queryBuf ((List.range w).map
            (fun i => miniception.mKey H w k t seed window i)))
         else none) := by
      simp only [miniception.sampleStream]
      rw [if_pos trivial,
        miniception.streamFold_spec H w k t seed window w (by omega) (le_refl w)]
    rw [hst, miniception.sample_eq H w k t seed window (by omega)]
    by_cases hex : ∃ i, i < w ∧ ∃ x, miniception.mKey H w k t seed window i = some x
    · have hex2 : ∃ i, i < w ∧ ∃ x, miniception.mKey H w k t seed window i = some x ∧
          x < U64MAX := by
        obtain ⟨i, hi, x, hx⟩ := hex
        refine ⟨i, hi, x, hx, ?_⟩
        unfold miniception.mKey at hx
        by_cases hch : miniception.charged H w k t seed window i
        · rw [if_pos hch] at hx
          simp only [Option.some.injEq] at hx
          rw [← hx]
          exact hb _ _ _ _
        · rw [if_neg hch] at hx
          exact absurd hx (by simp)
      have hL := scanLoopO_least U64MAX (miniception.mKey H w k t seed window) w hex2
      have hq := queryBuf_canon (fun i => miniception.mKey H w k t seed window i) w hex
      rw [if_pos hq.1, IsLeastO_unique hq hL.1, if_pos hL.1.1]
    · push_neg at hex
      have hallnone : ∀ i, i < w → miniception.mKey H w k t seed window i = none := by
        intro i hi
        cases hmk : miniception.mKey H w k t seed window i with
        | none => rfl
        | some x => exact absurd hmk (hex i hi x)
      have hscan : scanLoopO U64MAX (miniception.mKey H w k t seed window) w =
          (U64MAX, U64MAX) := by
        rcases scanLoopO_inv U64MAX (miniception.mKey H w k t seed window) w with
          ⟨h1, _⟩ | ⟨h1, h2, _⟩
        · exact h1
        · exfalso
          rw [hallnone _ h1] at h2
          exact Option.noConfusion h2
      have hqn : queryAux ((List.range w).map
          (fun i => miniception.mKey H w k t seed window i)) = none := by
        rw [queryAux_eq_none_iff]
        intro o ho2
        obtain ⟨i, hi, rfl⟩ := List.mem_map.mp ho2
        exact hallnone i (List.mem_range.mp hi)
      have hqb : queryBuf ((List.range w).map
          (fun i => miniception.mKey H w k t seed window i)) = U64MAX := by
        simp [queryBuf, hqn]
      rw [hqb, if_neg (by omega : ¬ (U64MAX < w)), hscan,
        if_neg (by omega : ¬ (U64MAX < w))]

/-- Witness for C5 at w = 2, k = 2, t = 1 on the DNA window ACG: the
stream/batch agreement conjunct of C5 instantiated there. -/
theorem C5_witness :
    2 ≤ (2 : ℕ) ∧ 2 ≤ U64MAX ∧ HBounded Hbyte ∧
    (miniception.sampleStream Hbyte 2 2 1 0 ([], []) [65, 67, 71] true).2 =
      miniception.sample Hbyte 2 2 1 0 [65, 67, 71] :=
  ⟨by decide, by decide, Hbyte_bounded,
    (C5_miniception_charging Hbyte 2 2 1 0 [65, 67, 71] (by decide) (by decide)
      Hbyte_bounded).2.2.2⟩

/-- The restricted-set membership test exactly as the claim words it: every
residue class j in [1, w) has a remapped-symbol sum exceeding the class-0 sum
by more than alphabet_size - 1 = 3.  Stated from the claim, to be compared
with in_uhs, the test the source actually runs (class sums at most the
class-0 sum plus 3). -/
def claimRestrictedTest (kmer : List ℕ) (w k : ℕ) : Bool :=
  (List.range w).all
    (fun j => j == 0 || decide (classSum kmer w k 0 + 3 < classSum kmer w k j))

/-- C6 counterexample: on the valid configuration w = 2, k = 2 and the
window AAA, no kmer satisfies the claim's restricted-set test (all class
sums are 0), yet the batch sample returns offset 0 without any error and the
streaming sample returns offset 0 as well. -/
theorem C6_counterexample :
    (2 : ℕ) ∣ 2 ∧
    (∀ i, i < 2 → claimRestrictedTest (sub [65, 65, 65] i 2) 2 2 = false) ∧
    rotational_orig.sample Hbyte 2 2 0 [65, 65, 65] = some 0 ∧
    (rotational_orig.sampleStream Hbyte 2 2 0 [] [65, 65, 65] true).2 = 0 := by
  refine ⟨by decide, by decide, by decide, by decide⟩

/-- C6 as amended: with the test as the source runs it (in_uhs: every class
sum at most the class-0 sum plus alphabet_size - 1), on every valid
configuration (w divides k, as the constructor requires) every window
contains a restricted-set kmer, so the batch error path is unreachable and
sample returns an offset; and the streaming path runs no restricted-set
check at all, returning the raw leftmost-minimum offset. -/
theorem C6_restricted_set_error (H : HasherFn) (w k seed : ℕ)
    (window : List ℕ) (hw : 2 ≤ w) (hdvd : w ∣ k) :
    (∃ i, i < w ∧ in_uhs (sub window i k) w k = true) ∧
    (∃ o, rotational_orig.sample H w k seed window = some o) ∧
    (rotational_orig.sampleStream H w k seed [] window true).2 =
      queryBuf ((List.range w).map
        (fun j => some (rotational_orig.kmerKey H w k seed window j))) := by
  refine ⟨uhs_exists window w k (by omega) hdvd, ?_, rfl⟩
  obtain ⟨p, _, hs⟩ := rotational_orig.sample_eq_least_orig H w k seed window (by omega)
    (uhs_exists window w k (by omega) hdvd)
  exact ⟨p, hs⟩

/-- Witness for C6 as amended at w = 2, k = 2 on the DNA window ACG. -/
theorem C6_witness :
    ((2 : ℕ) ≤ 2 ∧ (2 : ℕ) ∣ 2) ∧
    ((∃ i, i < 2 ∧ in_uhs (sub [65, 67, 71] i 2) 2 2 = true) ∧
      (∃ o, rotational_orig.sample Hbyte 2 2 0 [65, 67, 71] = some o) ∧
      (rotational_orig.sampleStream Hbyte 2 2 0 [] [65, 67, 71] true).2 =
        queryBuf ((List.range 2).map
          (fun j => some (rotational_orig.kmerKey Hbyte 2 2 0 [65, 67, 71] j)))) :=
  ⟨⟨by decide, by decide⟩,
    C6_restricted_set_error Hbyte 2 2 0 [65, 67, 71] (by decide) (by decide)⟩

/-- C1 counterexample: with the constant Hasher that always returns
uint64_t(-1), on the valid mod-sampling configuration w = 2, k = 1, t = 1
(w at least 2, t at most k) over the sequence AA with one window, the batch
scan never beats its uint64_t(-1) sentinel and dies in assert(p <
num_tmers), modelled none, while the streaming enumerator happily returns
the leftmost buffered position 0: the offset sequences differ. -/
theorem C1_counterexample :
    2 ≤ 2 ∧ 1 ≤ (1 : ℕ) ∧ 1 ≤ (1 : ℕ) ∧
    (List.range 1).map
      (fun i => mod_sampling.sample Hconst 2 1 1 0 (sub [65, 65] i (2 + 1 - 1))) ≠
      ((streamRun (mod_sampling.sampleStream Hconst 2 1 1 0) [] [65, 65]
        (2 + 1 - 1) 1).2).map some := by
  refine ⟨by decide, by decide, by decide, by decide⟩

/-- C1 as amended: the streaming offset sequence over consecutive windows
(reset true only on the first call) equals the batch per-window offsets for
every policy, under the additional hypothesis, where the plain Hasher value
is compared against the scan sentinel, that the Hasher stays strictly below
uint64_t(-1) (the counterexample shows the sentinel collision otherwise
breaks the equivalence), with w at most uint64_t(-1) for miniception, a DNA
sequence covering all windows for rotational_alt, and w dividing k for
rotational_orig as its constructor demands. -/
theorem C1_stream_batch_equiv (H : HasherFn) (w k t seed : ℕ) (s : List ℕ)
    (n : ℕ) (hw : 2 ≤ w) (hn : 1 ≤ n) :
    (t ≤ k → HBounded H →
      (List.range n).map
        (fun i => mod_sampling.sample H w k t seed (sub s i (w + k - 1))) =
        ((streamRun (mod_sampling.sampleStream H w k t seed) [] s
          (w + k - 1) n).2).map some) ∧
    (t ≤ k → w ≤ U64MAX → HBounded H →
      (List.range n).map
        (fun i => miniception.sample H w k t seed (sub s i (w + k - 1))) =
        (streamRun (miniception.sampleStream H w k t seed)
          (([], []) : miniception.StreamState) s (w + k - 1) n).2) ∧
    (1 ≤ k → (∀ c ∈ s, isDNA c) → (w + k - 1) + (n - 1) ≤ s.length →
      (List.range n).map
        (fun i => rotational_alt.sample H w k seed (sub s i (w + k - 1))) =
        ((streamRun (rotational_alt.sampleStream H w k seed) [] s
          (w + k - 1) n).2).map some) ∧
    (w ∣ k →
      (List.range n).map
        (fun i => rotational_orig.sample H w k seed (sub s i (w + k - 1))) =
        ((streamRun (rotational_orig.sampleStream H w k seed) [] s
          (w + k - 1) n).2).map some) ∧
    (∀ g, (List.range n).map
        (fun i => decycling.sample H w k seed g (sub s i (w + k - 1))) =
        ((streamRun (decycling.sampleStream H w k seed g) [] s
          (w + k - 1) n).2).map some) ∧
    (∀ g, (List.range n).map
        (fun i => double_decycling.sample H w k seed g (sub s i (w + k - 1))) =
        ((streamRun (double_decycling.sampleStream H w k seed g) [] s
          (w + k - 1) n).2).map some) :=
  ⟨fun ht hb => mod_sampling.equiv_lemma_mod H w k t seed s n hw ht hb hn,
    fun ht hwU hb => miniception.equiv_lemma_minic H w k t seed s n hw ht hwU hb hn,
    fun hk hdna hlen => rotational_alt.equiv_lemma_alt H w k seed s n hw hk hn hdna hlen,
    fun hdvd => rotational_orig.equiv_lemma_orig H w k seed s n hw hdvd hn,
    fun g => decycling.equiv_lemma_dec H w k seed g s n hw hn,
    fun g => double_decycling.equiv_lemma_ddec H w k seed g s n hw hn⟩

/-- Witness for C1 as amended at w = 2, k = 2, t = 1 on the DNA sequence
ACGT with two windows and the empty global roots vector. -/
theorem C1_witness :
    (2 ≤ 2 ∧ 1 ≤ 2 ∧ 1 ≤ (2 : ℕ) ∧ 2 ≤ U64MAX ∧ HBounded Hbyte ∧
      (∀ c ∈ ([65, 67, 71, 84] : List ℕ), isDNA c) ∧
      (2 + 2 - 1) + (2 - 1) ≤ ([65, 67, 71, 84] : List ℕ).length ∧ (2 : ℕ) ∣ 2) ∧
    ((List.range 2).map
        (fun i => mod_sampling.sample Hbyte 2 2 1 0 (sub [65, 67, 71, 84] i (2 + 2 - 1))) =
      ((streamRun (mod_sampling.sampleStream Hbyte 2 2 1 0) [] [65, 67, 71, 84]
        (2 + 2 - 1) 2).2).map some) ∧
    ((List.range 2).map
        (fun i => miniception.sample Hbyte 2 2 1 0 (sub [65, 67, 71, 84] i (2 + 2 - 1))) =
      (streamRun (miniception.sampleStream Hbyte 2 2 1 0)
        (([], []) : miniception.StreamState) [65, 67, 71, 84] (2 + 2 - 1) 2).2) ∧
    ((List.range 2).map
        (fun i => rotational_alt.sample Hbyte 2 2 0 (sub [65, 67, 71, 84] i (2 + 2 - 1))) =
      ((streamRun (rotational_alt.sampleStream Hbyte 2 2 0) [] [65, 67, 71, 84]
        (2 + 2 - 1) 2).2).map some) ∧
    ((List.range 2).map
        (fun i => rotational_orig.sample Hbyte 2 2 0 (sub [65, 67, 71, 84] i (2 + 2 - 1))) =
      ((streamRun (rotational_orig.sampleStream Hbyte 2 2 0) [] [65, 67, 71, 84]
        (2 + 2 - 1) 2).2).map some) ∧
    ((List.range 2).map
        (fun i => decycling.sample Hbyte 2 2 0 [] (sub [65, 67, 71, 84] i (2 + 2 - 1))) =
      ((streamRun (decycling.sampleStream Hbyte 2 2 0 []) [] [65, 67, 71, 84]
        (2 + 2 - 1) 2).2).map some) ∧
    ((List.range 2).map
        (fun i => double_decycling.sample Hbyte 2 2 0 [] (sub [65, 67, 71, 84] i (2 + 2 - 1))) =
      ((streamRun (double_decycling.sampleStream Hbyte 2 2 0 []) [] [65, 67, 71, 84]
        (2 + 2 - 1) 2).2).map some) := by
  obtain ⟨c1, c2, c3, c4, c5, c6⟩ := C1_stream_batch_equiv Hbyte 2 2 1 0
    [65, 67, 71, 84] 2 (by decide) (by decide)
  exact ⟨⟨by decide, by decide, by decide, by decide, Hbyte_bounded, by decide,
      by decide, by decide⟩,
    c1 (by decide) Hbyte_bounded, c2 (by decide) (by decide) Hbyte_bounded,
    c3 (by decide) (by decide) (by decide), c4 (by decide), c5 [], c6 []⟩

theorem rootsTable_length (k : ℕ) : (rootsTable k).length = k := by
  unfold rootsTable
  rw [List.length_map, List.length_range]

theorem rootsTable_getD (k i : ℕ) (hi : i < k) (d : ℂ) :
    (rootsTable k).getD i d =
      Complex.exp (((2 * Real.pi * i / k : ℝ) : ℂ) * Complex.I) := by
  unfold rootsTable
  rw [List.getD_eq_getElem?_getD, List.getElem?_map, List.getElem?_range hi]
  rfl

theorem rootsTable_getD0 (k : ℕ) (hk : 0 < k) : (rootsTable k).getD 0 0 = 1 := by
  rw [rootsTable_getD k 0 hk 0]
  simp

theorem rootsTable_four_getD1 : (rootsTable 4).getD 1 0 = Complex.I := by
  rw [rootsTable_getD 4 1 (by norm_num) 0,
    show (2 * Real.pi * (1 : ℕ) / (4 : ℕ) : ℝ) = Real.pi / 2 by push_cast; ring,
    Complex.exp_mul_I]
  rw [← Complex.ofReal_cos, ← Complex.ofReal_sin,
    Real.cos_pi_div_two, Real.sin_pi_div_two]
  simp

theorem rootsTable_four_getD2 : (rootsTable 4).getD 2 0 = -1 := by
  rw [rootsTable_getD 4 2 (by norm_num) 0,
    show (2 * Real.pi * (2 : ℕ) / (4 : ℕ) : ℝ) = Real.pi by push_cast; ring,
    Complex.exp_pi_mul_I]

theorem rootsTable_four_getD3 : (rootsTable 4).getD 3 0 = -Complex.I := by
  rw [rootsTable_getD 4 3 (by norm_num) 0,
    show (2 * Real.pi * (3 : ℕ) / (4 : ℕ) : ℝ) = Real.pi + Real.pi / 2 by
      push_cast; ring,
    Complex.ofReal_add, add_mul, Complex.exp_add, Complex.exp_pi_mul_I,
    Complex.exp_mul_I, ← Complex.ofReal_cos, ← Complex.ofReal_sin,
    Real.cos_pi_div_two, Real.sin_pi_div_two]
  simp

theorem rootsTable_eight_getD1 :
    (rootsTable 8).getD 1 0 =
      Complex.exp (((Real.pi / 4 : ℝ) : ℂ) * Complex.I) := by
  rw [rootsTable_getD 8 1 (by norm_num) 0,
    show (2 * Real.pi * (1 : ℕ) / (8 : ℕ) : ℝ) = Real.pi / 4 by push_cast; ring]

theorem rootsTable_eight_getD2 : (rootsTable 8).getD 2 0 = Complex.I := by
  rw [rootsTable_getD 8 2 (by norm_num) 0,
    show (2 * Real.pi * (2 : ℕ) / (8 : ℕ) : ℝ) = Real.pi / 2 by push_cast; ring,
    Complex.exp_mul_I, ← Complex.ofReal_cos, ← Complex.ofReal_sin,
    Real.cos_pi_div_two, Real.sin_pi_div_two]
  simp

theorem rootsTable_eight_getD3 :
    (rootsTable 8).getD 3 0 =
      Complex.exp (((Real.pi - Real.pi / 4 : ℝ) : ℂ) * Complex.I) := by
  rw [rootsTable_getD 8 3 (by norm_num) 0,
    show (2 * Real.pi * (3 : ℕ) / (8 : ℕ) : ℝ) = Real.pi - Real.pi / 4 by
      push_cast; ring]

theorem exp_quarter :
    Complex.exp (((Real.pi / 4 : ℝ) : ℂ) * Complex.I) =
      ((Real.sqrt 2 / 2 : ℝ) : ℂ) + ((Real.sqrt 2 / 2 : ℝ) : ℂ) * Complex.I := by
  rw [Complex.exp_mul_I, ← Complex.ofReal_cos, ← Complex.ofReal_sin,
    Real.cos_pi_div_four, Real.sin_pi_div_four]

theorem exp_three_quarter :
    Complex.exp (((Real.pi - Real.pi / 4 : ℝ) : ℂ) * Complex.I) =
      -((Real.sqrt 2 / 2 : ℝ) : ℂ) + ((Real.sqrt 2 / 2 : ℝ) : ℂ) * Complex.I := by
  rw [Complex.exp_mul_I, ← Complex.ofReal_cos, ← Complex.ofReal_sin,
    Real.cos_pi_sub, Real.sin_pi_sub, Real.cos_pi_div_four, Real.sin_pi_div_four]
  push_cast
  ring

theorem embSum_four (g : List ℂ) (kmer : List ℕ) :
    embSum g 4 kmer =
      g.getD 0 0 * (kmer.getD 0 0 : ℂ) + g.getD 1 0 * (kmer.getD 1 0 : ℂ) +
      g.getD 2 0 * (kmer.getD 2 0 : ℂ) + g.getD 3 0 * (kmer.getD 3 0 : ℂ) := by
  unfold embSum
  rw [show List.range 4 = [0, 1, 2, 3] from rfl]
  simp only [List.map_cons, List.map_nil, List.sum_cons, List.sum_nil]
  ring

theorem dirty_getD (i : ℕ) (hi : i < 8) :
    (constructRoots 4 (constructRoots 8 [])).getD i 0 = (rootsTable 8).getD i 0 := by
  show (rootsTable 8 ++ rootsTable 4).getD i 0 = _
  rw [List.getD_eq_getElem?_getD, List.getElem?_append,
    if_pos (show i < (rootsTable 8).length by rw [rootsTable_length]; exact hi),
    ← List.getD_eq_getElem?_getD]

theorem embSum_fresh_K0 :
    embSum (constructRoots 4 []) 4 [65, 84, 84, 65] = -19 + 19 * Complex.I := by
  rw [show constructRoots 4 [] = rootsTable 4 from rfl, embSum_four,
    rootsTable_getD0 4 (by norm_num), rootsTable_four_getD1,
    rootsTable_four_getD2, rootsTable_four_getD3,
    show ([65, 84, 84, 65] : List ℕ).getD 0 0 = 65 from rfl,
    show ([65, 84, 84, 65] : List ℕ).getD 1 0 = 84 from rfl,
    show ([65, 84, 84, 65] : List ℕ).getD 2 0 = 84 from rfl,
    show ([65, 84, 84, 65] : List ℕ).getD 3 0 = 65 from rfl]
  push_cast
  ring

theorem embSum_fresh_K1 :
    embSum (constructRoots 4 []) 4 [84, 84, 65, 65] =
      ((19 : ℝ) : ℂ) + ((19 : ℝ) : ℂ) * Complex.I := by
  rw [show constructRoots 4 [] = rootsTable 4 from rfl, embSum_four,
    rootsTable_getD0 4 (by norm_num), rootsTable_four_getD1,
    rootsTable_four_getD2, rootsTable_four_getD3,
    show ([84, 84, 65, 65] : List ℕ).getD 0 0 = 84 from rfl,
    show ([84, 84, 65, 65] : List ℕ).getD 1 0 = 84 from rfl,
    show ([84, 84, 65, 65] : List ℕ).getD 2 0 = 65 from rfl,
    show ([84, 84, 65, 65] : List ℕ).getD 3 0 = 65 from rfl]
  push_cast
  ring

theorem embSum_dirty_K0 :
    embSum (constructRoots 4 (constructRoots 8 [])) 4 [65, 84, 84, 65] =
      ((65 + 19 * (Real.sqrt 2 / 2) : ℝ) : ℂ) +
      ((84 + 149 * (Real.sqrt 2 / 2) : ℝ) : ℂ) * Complex.I := by
  rw [embSum_four, dirty_getD 0 (by norm_num), dirty_getD 1 (by norm_num),
    dirty_getD 2 (by norm_num), dirty_getD 3 (by norm_num),
    rootsTable_getD0 8 (by norm_num), rootsTable_eight_getD1,
    rootsTable_eight_getD2, rootsTable_eight_getD3, exp_quarter, exp_three_quarter,
    show ([65, 84, 84, 65] : List ℕ).getD 0 0 = 65 from rfl,
    show ([65, 84, 84, 65] : List ℕ).getD 1 0 = 84 from rfl,
    show ([65, 84, 84, 65] : List ℕ).getD 2 0 = 84 from rfl,
    show ([65, 84, 84, 65] : List ℕ).getD 3 0 = 65 from rfl]
  push_cast
  ring

theorem embSum_dirty_K1 :
    embSum (constructRoots 4 (constructRoots 8 [])) 4 [84, 84, 65, 65] =
      ((84 + 19 * (Real.sqrt 2 / 2) : ℝ) : ℂ) +
      ((65 + 149 * (Real.sqrt 2 / 2) : ℝ) : ℂ) * Complex.I := by
  rw [embSum_four, dirty_getD 0 (by norm_num), dirty_getD 1 (by norm_num),
    dirty_getD 2 (by norm_num), dirty_getD 3 (by norm_num),
    rootsTable_getD0 8 (by norm_num), rootsTable_eight_getD1,
    rootsTable_eight_getD2, rootsTable_eight_getD3, exp_quarter, exp_three_quarter,
    show ([84, 84, 65, 65] : List ℕ).getD 0 0 = 84 from rfl,
    show ([84, 84, 65, 65] : List ℕ).getD 1 0 = 84 from rfl,
    show ([84, 84, 65, 65] : List ℕ).getD 2 0 = 65 from rfl,
    show ([84, 84, 65, 65] : List ℕ).getD 3 0 = 65 from rfl]
  push_cast
  ring

theorem threshold_four : Real.pi - 2 * Real.pi / ((4 : ℕ) : ℝ) = Real.pi / 2 := by
  push_cast
  ring

/-- A point strictly in the right half plane has argument strictly below
pi/2, with a margin: here used for embeddings whose real part is at least
51, far from the rounding-sensitive boundary. -/
theorem not_half_pi_lt_arg (x y : ℝ) (hx : 0 < x) :
    ¬ (Real.pi / 2 < (((x : ℝ) : ℂ) + ((y : ℝ) : ℂ) * Complex.I).arg) := by
  intro h
  have hre : (((x : ℝ) : ℂ) + ((y : ℝ) : ℂ) * Complex.I).re = x := by
    simp
  have habs : |(((x : ℝ) : ℂ) + ((y : ℝ) : ℂ) * Complex.I).arg| < Real.pi / 2 :=
    Complex.abs_arg_lt_pi_div_two_iff.mpr (Or.inl (by rw [hre]; exact hx))
  have h2 := (abs_lt.mp habs).2
  linarith

theorem arg_fresh_K0 : (-19 + 19 * Complex.I : ℂ).arg = Real.pi - Real.pi / 4 := by
  have h2C : (Real.sqrt 2 : ℂ) * (Real.sqrt 2 : ℂ) = 2 := by
    have h2 : Real.sqrt 2 * Real.sqrt 2 = 2 := Real.mul_self_sqrt (by norm_num)
    exact_mod_cast h2
  have hz : (-19 + 19 * Complex.I : ℂ) =
      ((19 * Real.sqrt 2 : ℝ) : ℂ) * (Complex.cos ((Real.pi - Real.pi / 4 : ℝ) : ℂ) +
        Complex.sin ((Real.pi - Real.pi / 4 : ℝ) : ℂ) * Complex.I) := by
    rw [← Complex.ofReal_cos, ← Complex.ofReal_sin, Real.cos_pi_sub, Real.sin_pi_sub,
      Real.cos_pi_div_four, Real.sin_pi_div_four]
    push_cast
    linear_combination ((19 : ℂ) / 2 - (19 : ℂ) / 2 * Complex.I) * h2C
  rw [hz, Complex.arg_mul_cos_add_sin_mul_I (by positivity)
    (Set.mem_Ioc.mpr ⟨by linarith [Real.pi_pos], by linarith [Real.pi_pos]⟩)]

theorem fresh_K0_pos : isDecyclingArgPos (constructRoots 4 []) 4 [65, 84, 84, 65] := by
  unfold isDecyclingArgPos
  rw [embSum_fresh_K0, arg_fresh_K0, threshold_four]
  linarith [Real.pi_pos]

theorem fresh_K1_not_pos :
    ¬ isDecyclingArgPos (constructRoots 4 []) 4 [84, 84, 65, 65] := by
  unfold isDecyclingArgPos
  rw [embSum_fresh_K1, threshold_four]
  exact not_half_pi_lt_arg 19 19 (by norm_num)

theorem dirty_K0_not_pos :
    ¬ isDecyclingArgPos (constructRoots 4 (constructRoots 8 [])) 4 [65, 84, 84, 65] := by
  unfold isDecyclingArgPos
  rw [embSum_dirty_K0, threshold_four]
  exact not_half_pi_lt_arg (65 + 19 * (Real.sqrt 2 / 2)) (84 + 149 * (Real.sqrt 2 / 2))
    (by positivity)

theorem dirty_K1_not_pos :
    ¬ isDecyclingArgPos (constructRoots 4 (constructRoots 8 [])) 4 [84, 84, 65, 65] := by
  unfold isDecyclingArgPos
  rw [embSum_dirty_K1, threshold_four]
  exact not_half_pi_lt_arg (84 + 19 * (Real.sqrt 2 / 2)) (65 + 149 * (Real.sqrt 2 / 2))
    (by positivity)

theorem key_fresh_0 :
    decycling.kmerKey Hrev 2 4 0 (constructRoots 4 []) [65, 84, 84, 65, 65] 0 =
      toLex (0, 190) := by
  unfold decycling.kmerKey
  rw [show sub [65, 84, 84, 65, 65] 0 4 = [65, 84, 84, 65] from rfl,
    show Hrev [65, 84, 84, 65] 2 4 0 = 190 from rfl]
  unfold decLabel
  rw [if_pos fresh_K0_pos]

theorem key_fresh_1 :
    decycling.kmerKey Hrev 2 4 0 (constructRoots 4 []) [65, 84, 84, 65, 65] 1 =
      toLex (1, 171) := by
  unfold decycling.kmerKey
  rw [show sub [65, 84, 84, 65, 65] 1 4 = [84, 84, 65, 65] from rfl,
    show Hrev [84, 84, 65, 65] 2 4 0 = 171 from rfl]
  unfold decLabel
  rw [if_neg fresh_K1_not_pos]

theorem key_dirty_0 :
    decycling.kmerKey Hrev 2 4 0 (constructRoots 4 (constructRoots 8 []))
      [65, 84, 84, 65, 65] 0 = toLex (1, 190) := by
  unfold decycling.kmerKey
  rw [show sub [65, 84, 84, 65, 65] 0 4 = [65, 84, 84, 65] from rfl,
    show Hrev [65, 84, 84, 65] 2 4 0 = 190 from rfl]
  unfold decLabel
  rw [if_neg dirty_K0_not_pos]

theorem key_dirty_1 :
    decycling.kmerKey Hrev 2 4 0 (constructRoots 4 (constructRoots 8 []))
      [65, 84, 84, 65, 65] 1 = toLex (1, 171) := by
  unfold decycling.kmerKey
  rw [show sub [65, 84, 84, 65, 65] 1 4 = [84, 84, 65, 65] from rfl,
    show Hrev [84, 84, 65, 65] 2 4 0 = 171 from rfl]
  unfold decLabel
  rw [if_neg dirty_K1_not_pos]

/-- C8 counterexample: decycling batch sampling reads the process-wide global
vector roots, which every decycling constructor appends k entries to without
clearing.  With w = 2, k = 4 on window ATTAA, a call made when only one
k = 4 construction has run reads the fourth roots of unity and returns
offset 0 (kmer ATTA embeds to -19 + 19i, argument 3pi/4, past the pi/2
threshold, label 0), but an identical call made after an intervening k = 8
construction reads the first four eighth roots of unity instead and returns
offset 1 (both embeddings then lie strictly in the right half plane, labels
1, and the hash tie-break picks the other kmer).  Every argument involved
sits at distance at least pi/4 from the pi/2 threshold and from the branch
cut (all real parts are at least 51 in absolute value, all imaginary parts
at least 19), so the comparison is stable under the rounding of the
source's long-double trigonometry: this offset split is a property of the
program, not of the exact-real idealisation. -/
theorem C8_counterexample :
    decycling.sample Hrev 2 4 0 (constructRoots 4 []) [65, 84, 84, 65, 65] =
      some 0 ∧
    decycling.sample Hrev 2 4 0 (constructRoots 4 (constructRoots 8 []))
      [65, 84, 84, 65, 65] = some 1 ∧
    decycling.sample Hrev 2 4 0 (constructRoots 4 []) [65, 84, 84, 65, 65] ≠
      decycling.sample Hrev 2 4 0 (constructRoots 4 (constructRoots 8 []))
        [65, 84, 84, 65, 65] := by
  have h1 : decycling.sample Hrev 2 4 0 (constructRoots 4 []) [65, 84, 84, 65, 65] =
      some 0 := by
    obtain ⟨p, hL, hs⟩ := decycling.sample_eq_least_dec Hrev 2 4 0 (constructRoots 4 [])
      [65, 84, 84, 65, 65] (by omega)
    have hL0 : IsLeastO (fun i => some (decycling.kmerKey Hrev 2 4 0
        (constructRoots 4 []) [65, 84, 84, 65, 65] i)) 2 0 := by
      refine ⟨by omega, toLex (0, 190), by simp only [key_fresh_0], ?_, ?_⟩
      · intro j hj y hy
        simp only [Option.some.injEq] at hy
        rcases (by omega : j = 0 ∨ j = 1) with rfl | rfl
        · rw [key_fresh_0] at hy
          rw [← hy]
        · rw [key_fresh_1] at hy
          rw [← hy]
          decide
      · intro j hj y hy
        omega
    rw [hs, IsLeastO_unique hL hL0]
  have h2 : decycling.sample Hrev 2 4 0 (constructRoots 4 (constructRoots 8 []))
      [65, 84, 84, 65, 65] = some 1 := by
    obtain ⟨p, hL, hs⟩ := decycling.sample_eq_least_dec Hrev 2 4 0
      (constructRoots 4 (constructRoots 8 [])) [65, 84, 84, 65, 65] (by omega)
    have hL1 : IsLeastO (fun i => some (decycling.kmerKey Hrev 2 4 0
        (constructRoots 4 (constructRoots 8 [])) [65, 84, 84, 65, 65] i)) 2 1 := by
      refine ⟨by omega, toLex (1, 171), by simp only [key_dirty_1], ?_, ?_⟩
      · intro j hj y hy
        simp only [Option.some.injEq] at hy
        rcases (by omega : j = 0 ∨ j = 1) with rfl | rfl
        · rw [key_dirty_0] at hy
          rw [← hy]
          decide
        · rw [key_dirty_1] at hy
          rw [← hy]
      · intro j hj y hy
        simp only [Option.some.injEq] at hy
        have hj0 : j = 0 := by omega
        subst hj0
        rw [key_dirty_0] at hy
        rw [← hy]
        decide
    rw [hs, IsLeastO_unique hL hL1]
  refine ⟨h1, h2, ?_⟩
  rw [h1, h2]
  decide

/-- C8 as amended: every policy's batch sample is a pure function of the
configuration, the window bytes and the global tables it reads.  For
decycling and double_decycling the only shared state is the global roots
vector, and the sample depends on it only through its first k entries: two
calls whose global vectors agree on the first k entries (in particular two
calls with no intervening construction, or with intervening constructions of
the same k) return identical offsets.  The counterexample shows dependence
beyond the configuration is real when an intervening construction used a
different k. -/
theorem C8_batch_purity (H : HasherFn) (w k seed : ℕ) (window : List ℕ)
    (g1 g2 : List ℂ) (hg : g1.take k = g2.take k) :
    decycling.sample H w k seed g1 window =
      decycling.sample H w k seed g2 window ∧
    double_decycling.sample H w k seed g1 window =
      double_decycling.sample H w k seed g2 window := by
  have hgd : ∀ i, i < k → g1.getD i (0 : ℂ) = g2.getD i 0 := by
    intro i hi
    have e1 : (g1.take k)[i]? = g1[i]? := List.getElem?_take_of_lt hi
    have e2 : (g2.take k)[i]? = g2[i]? := List.getElem?_take_of_lt hi
    rw [List.getD_eq_getElem?_getD, List.getD_eq_getElem?_getD, ← e1, ← e2, hg]
  have hkey : ∀ kmer : List ℕ, embSum g1 k kmer = embSum g2 k kmer := by
    intro kmer
    unfold embSum
    congr 1
    apply List.map_congr_left
    intro i hi
    rw [hgd i (List.mem_range.mp hi)]
  constructor
  · have hfk : decycling.kmerKey H w k seed g1 window =
        decycling.kmerKey H w k seed g2 window := by
      funext i
      unfold decycling.kmerKey decLabel isDecyclingArgPos
      rw [hkey]
    unfold decycling.sample
    rw [hfk]
  · have hfk : double_decycling.kmerKey H w k seed g1 window =
        double_decycling.kmerKey H w k seed g2 window := by
      funext i
      unfold double_decycling.kmerKey ddecLabel isDecyclingArgPos isDecyclingArgNeg
      rw [hkey]
    unfold double_decycling.sample
    rw [hfk]

/-- Witness for C8 as amended: one construction with k = 2 versus two
consecutive constructions with k = 2 leave the same first two global
entries, so the samples on the window ACG agree. -/
theorem C8_witness :
    (constructRoots 2 []).take 2 =
      (constructRoots 2 (constructRoots 2 [])).take 2 ∧
    decycling.sample Hbyte 2 2 0 (constructRoots 2 []) [65, 67, 71] =
      decycling.sample Hbyte 2 2 0 (constructRoots 2 (constructRoots 2 []))
        [65, 67, 71] ∧
    double_decycling.sample Hbyte 2 2 0 (constructRoots 2 []) [65, 67, 71] =
      double_decycling.sample Hbyte 2 2 0 (constructRoots 2 (constructRoots 2 []))
        [65, 67, 71] := by
  have hg : (constructRoots 2 []).take 2 =
      (constructRoots 2 (constructRoots 2 [])).take 2 := by
    show (rootsTable 2).take 2 = (rootsTable 2 ++ rootsTable 2).take 2
    rw [List.take_append_of_le_length (by rw [rootsTable_length])]
  obtain ⟨hd, hdd⟩ := C8_batch_purity Hbyte 2 2 0 [65, 67, 71] (constructRoots 2 [])
    (constructRoots 2 (constructRoots 2 [])) hg
  exact ⟨hg, hd, hdd⟩

/-- C7: constructing rotational_orig with k not divisible by w fails the
construction-time check (assert(m_k % m_w == 0)) for every w at least 2, and
no usable policy state is produced. -/
theorem C7_construct_fails (w k t seed : ℕ) (hw : 2 ≤ w) (hk : k % w ≠ 0) :
    rotational_orig.construct w k t seed = none := by
  unfold rotational_orig.construct
  rw [if_neg hk]

/-- Witness for C7 at w = 2, k = 3. -/
theorem C7_witness :
    2 ≤ 2 ∧ 3 % 2 ≠ 0 ∧ rotational_orig.construct 2 3 0 0 = none :=
  ⟨by decide, by decide, C7_construct_fails 2 3 0 0 (by decide) (by decide)⟩

end Minimizers
